import Mathlib

/-!
# Verification of the simpledot DOT-grammar engine

A shallow embedding of the parsing core of the simpledot repository
(files src/ir.rs, src/attribute.rs) into Lean 4, together with proofs
settling the frozen claims about it.

The Rust code is written against the nom parser-combinator library,
using only the complete-input combinators (tag, take_while1,
take_until1, alt, opt, many0, many1, separated_list1, delimited, pair,
separated_pair, tuple, recognize, value, map).  Each of those
combinators is modelled here as a function from the remaining input (a
list of characters) to either an error or a pair of remaining input
and parsed value.  The nom error taxonomy (Err::Error, Err::Failure,
Err::Incomplete) is kept, because alt and opt recover only from
Err::Error and the top-level entry point classifies Err::Incomplete
separately; the trace payload of VerboseError is not modelled, since
no claim depends on its contents.

Naming: each Rust function fn xxx_parser of the source is embedded
here as the definition xxx_rule (the suffix differs, the base name is
kept); all other names are kept as in the source where Lean allows.
-/

namespace SimpleDot

/-- The three constructors of nom::Err.  The complete-input combinators
used by the repository produce only the Error constructor. -/
inductive NomErr where
  | Error
  | Failure
  | Incomplete
deriving DecidableEq

abbrev Input := List Char

abbrev PResult (α : Type) := Except NomErr (Input × α)

abbrev Parser (α : Type) := Input → PResult α

deriving instance DecidableEq for Except

/-! ## Character classes

nom AsChar classes for char input are ASCII-only: is_alpha is a-zA-Z,
is_dec_digit is 0-9, is_alphanumeric their union. -/

def isAsciiAlpha (c : Char) : Bool :=
  (97 ≤ c.toNat && c.toNat ≤ 122) || (65 ≤ c.toNat && c.toNat ≤ 90)

def isAsciiDigit (c : Char) : Bool :=
  48 ≤ c.toNat && c.toNat ≤ 57

def isAsciiAlphanumeric (c : Char) : Bool :=
  isAsciiAlpha c || isAsciiDigit c

/-- The character range of the highbit parser in ir.rs: octal 200 to
octal 377, that is 128 to 255. -/
def isHighbit (c : Char) : Bool :=
  128 ≤ c.toNat && c.toNat ≤ 255

/-- Modelled from the spec: the whitespace class skipped by the ws
combinator of the missing src/ws.rs module.  The spec only says the
combinator "skips insignificant whitespace before and after a token";
the usual nom recipe (multispace0) skips spaces, tabs, carriage
returns and line feeds. -/
def isWsChar (c : Char) : Bool :=
  c.toNat = 32 || c.toNat = 9 || c.toNat = 10 || c.toNat = 13

/-- The Unicode White_Space class used by Rust str::trim, which the
entry point parse_graph applies to the unconsumed remainder. -/
def rustIsWhitespace (c : Char) : Bool :=
  (9 ≤ c.toNat && c.toNat ≤ 13) || c.toNat = 32 || c.toNat = 133 ||
  c.toNat = 160 || c.toNat = 5760 || (8192 ≤ c.toNat && c.toNat ≤ 8202) ||
  c.toNat = 8232 || c.toNat = 8233 || c.toNat = 8239 || c.toNat = 8287 ||
  c.toNat = 12288

/-! ## nom combinator model -/

/-- nom bytes::complete::tag: match a literal token at the head of the
input. -/
def tag (t : List Char) : Parser (List Char) := fun i =>
  if t.isPrefixOf i then .ok (i.drop t.length, t) else .error NomErr.Error

/-- nom character::complete::char: match one given character. -/
def charP (c : Char) : Parser Char := fun i =>
  match i with
  | [] => .error NomErr.Error
  | c2 :: rest => if c2 = c then .ok (rest, c) else .error NomErr.Error

/-- nom bytes::complete::take_while1: longest (possibly improper)
prefix of characters satisfying the predicate; fails if it is empty. -/
def takeWhile1 (p : Char → Bool) : Parser (List Char) := fun i =>
  match i.takeWhile p with
  | [] => .error NomErr.Error
  | c :: cs => .ok (i.drop (c :: cs).length, c :: cs)

def alpha1 : Parser (List Char) := takeWhile1 isAsciiAlpha

def alphanumeric1 : Parser (List Char) := takeWhile1 isAsciiAlphanumeric

def digit1 : Parser (List Char) := takeWhile1 isAsciiDigit

/-- nom character::complete::digit0: longest (possibly empty) run of
ASCII digits; never fails. -/
def digit0 : Parser (List Char) := fun i =>
  .ok (i.dropWhile isAsciiDigit, i.takeWhile isAsciiDigit)

/-- Index of the first occurrence of needle as a contiguous sublist
(nom FindSubstring, str::find). -/
def findSubstring (needle : List Char) : List Char → Option Nat
  | [] => if needle.isEmpty then some 0 else none
  | c :: rest =>
    if needle.isPrefixOf (c :: rest) then some 0
    else (findSubstring needle rest).map (fun k => k + 1)

/-- nom bytes::complete::take_until1: consume the nonempty input up to
but not including the first occurrence of the needle; fails when the
needle is absent or occurs at position zero. -/
def takeUntil1 (needle : List Char) : Parser (List Char) := fun i =>
  match findSubstring needle i with
  | none => .error NomErr.Error
  | some 0 => .error NomErr.Error
  | some (k + 1) => .ok (i.drop (k + 1), i.take (k + 1))

/-- nom branch::alt for two alternatives: ordered choice recovering
only from Err::Error.  A wider alt((a, b, c)) is the left-nested
altP (altP a b) c, preserving trial order. -/
def altP {α : Type} (p q : Parser α) : Parser α := fun i =>
  match p i with
  | .ok r => .ok r
  | .error NomErr.Error => q i
  | .error e => .error e

/-- nom combinator::opt: turn Err::Error into a successful none,
consuming nothing; other errors propagate. -/
def optP {α : Type} (p : Parser α) : Parser (Option α) := fun i =>
  match p i with
  | .ok (r, v) => .ok (r, some v)
  | .error NomErr.Error => .ok (i, none)
  | .error e => .error e

/-- nom Parser::map / combinator::map. -/
def mapP {α β : Type} (p : Parser α) (f : α → β) : Parser β := fun i =>
  match p i with
  | .ok (r, v) => .ok (r, f v)
  | .error e => .error e

/-- nom combinator::value: replace the parsed value by a constant. -/
def valueP {α β : Type} (v : β) (p : Parser α) : Parser β :=
  mapP p (fun _ => v)

/-- nom combinator::recognize: run the inner parser and return the
consumed portion of the input instead of its value. -/
def recognizeP {α : Type} (p : Parser α) : Parser (List Char) := fun i =>
  match p i with
  | .ok (r, _) => .ok (r, i.take (i.length - r.length))
  | .error e => .error e

/-- nom sequence::pair. -/
def pairP {α β : Type} (p : Parser α) (q : Parser β) : Parser (α × β) := fun i =>
  match p i with
  | .error e => .error e
  | .ok (i1, a) =>
    match q i1 with
    | .error e => .error e
    | .ok (i2, b) => .ok (i2, (a, b))

/-- nom sequence::tuple for three components. -/
def tuple3P {α β γ : Type} (p : Parser α) (q : Parser β) (r : Parser γ) :
    Parser (α × β × γ) := fun i =>
  match p i with
  | .error e => .error e
  | .ok (i1, a) =>
    match q i1 with
    | .error e => .error e
    | .ok (i2, b) =>
      match r i2 with
      | .error e => .error e
      | .ok (i3, c) => .ok (i3, (a, b, c))

/-- nom sequence::separated_pair: first, separator (dropped), second. -/
def sepPairP {α β γ : Type} (p : Parser α) (sep : Parser β) (q : Parser γ) :
    Parser (α × γ) := fun i =>
  match p i with
  | .error e => .error e
  | .ok (i1, a) =>
    match sep i1 with
    | .error e => .error e
    | .ok (i2, _) =>
      match q i2 with
      | .error e => .error e
      | .ok (i3, c) => .ok (i3, (a, c))

/-- nom sequence::delimited: open (dropped), body, close (dropped). -/
def delimitedP {α β γ : Type} (openP : Parser α) (p : Parser β) (closeP : Parser γ) :
    Parser β := fun i =>
  match openP i with
  | .error e => .error e
  | .ok (i1, _) =>
    match p i1 with
    | .error e => .error e
    | .ok (i2, b) =>
      match closeP i2 with
      | .error e => .error e
      | .ok (i3, _) => .ok (i3, b)

/-- Fuel-indexed loop of nom multi::many0.  nom stops the loop when the
inner parser fails with Err::Error, propagates other errors, and
returns Err::Error (ErrorKind::Many0) when an iteration succeeds
without consuming input.  nom detects lack of progress by comparing
lengths for equality; every parser in this development returns a
suffix of its input, for which the strict-decrease test used here is
equivalent, and it makes the recursion structural.  The fuel only
bounds the recursion: the wrapper many0 supplies more fuel than the
input length, and an iteration that recurses has strictly shortened
the input, so the zero-fuel branch is unreachable. -/
def many0Aux {α : Type} (p : Parser α) : Nat → Input → PResult (List α)
  | 0, _ => .error NomErr.Error
  | fuel + 1, i =>
    match p i with
    | .error NomErr.Error => .ok (i, [])
    | .error e => .error e
    | .ok (i1, o) =>
      if i1.length < i.length then
        match many0Aux p fuel i1 with
        | .ok (r, acc) => .ok (r, o :: acc)
        | .error e => .error e
      else .error NomErr.Error

/-- nom multi::many0. -/
def many0 {α : Type} (p : Parser α) : Parser (List α) := fun i =>
  many0Aux p (i.length + 1) i

/-- nom multi::many1: a first mandatory element whose failure
propagates, then the same loop as many0 (including its
ErrorKind::Many1 no-progress failure). -/
def many1 {α : Type} (p : Parser α) : Parser (List α) := fun i =>
  match p i with
  | .error e => .error e
  | .ok (i1, o) =>
    match many0 p i1 with
    | .ok (r, acc) => .ok (r, o :: acc)
    | .error e => .error e

/-- Fuel-indexed loop of nom multi::separated_list1: try the
separator (stopping the list on its Err::Error), require progress
from it (ErrorKind::SeparatedList otherwise), then try the element
parser (stopping the list, without consuming the separator, on its
Err::Error).  The same remarks as for many0Aux apply to the fuel and
to the strict-decrease progress test. -/
def sepList1Aux {α β : Type} (sep : Parser β) (p : Parser α) :
    Nat → Input → List α → PResult (List α)
  | 0, _, _ => .error NomErr.Error
  | fuel + 1, i, acc =>
    match sep i with
    | .error NomErr.Error => .ok (i, acc)
    | .error e => .error e
    | .ok (i1, _) =>
      if i1.length < i.length then
        match p i1 with
        | .error NomErr.Error => .ok (i, acc)
        | .error e => .error e
        | .ok (i2, o) => sepList1Aux sep p fuel i2 (acc ++ [o])
      else .error NomErr.Error

/-- nom multi::separated_list1. -/
def separated_list1 {α β : Type} (sep : Parser β) (p : Parser α) :
    Parser (List α) := fun i =>
  match p i with
  | .error e => .error e
  | .ok (i1, o) => sepList1Aux sep p (i1.length + 1) i1 [o]

/-- Modelled from the spec: the ws combinator of the missing
src/ws.rs module, "a wrapping combinator applied around every
token-level rule that skips insignificant whitespace before and
after a token". -/
def ws {α : Type} (p : Parser α) : Parser α := fun i =>
  match p (i.dropWhile isWsChar) with
  | .ok (r, v) => .ok (r.dropWhile isWsChar, v)
  | .error e => .error e

/-! ## Data model (ir.rs and attribute.rs) -/

inductive GraphKind where
  | Directed
  | Undirected
deriving DecidableEq

inductive AttributeKind where
  | Graph
  | Node
  | Edge
deriving DecidableEq

/-- attribute.rs enum Style: the eleven style keywords. -/
inductive Style where
  | Dashed
  | Dotted
  | Solid
  | Invis
  | Bold
  | Tapered
  | Filled
  | Striped
  | Wedged
  | Diagonals
  | Rounded
deriving DecidableEq

/-- attribute.rs enum Shape, restricted to the six variants that
shape_rule can produce ("only polygon shapes currently supported");
the remaining declared variants have no parsing path and no parser in
the repository constructs them. -/
inductive Shape where
  | Box
  | Polygon
  | Ellipse
  | Oval
  | Circle
  | Point
deriving DecidableEq

/-- attribute.rs enum Attribute, restricted to the two variants that
attribute_rule can produce.  The Rust enum declares about eighty
further variants (colors, geometry, numbers, ...), but the grammar
dispatches only on the names style and shape, so no parser in the
repository constructs any other variant. -/
inductive Attribute where
  | Style (styles : List Style)
  | Shape (shape : Shape)
deriving DecidableEq

abbrev Ident := List Char

structure AttributeStatement where
  kind : AttributeKind
  attributes : List Attribute
deriving DecidableEq

structure NodeStatement where
  name : Ident
  attributes : List Attribute
deriving DecidableEq

/-- ir.rs struct EdgeStatement; the field holding the identifier chain
is named list in the source. -/
structure EdgeStatement where
  list : List Ident
  attributes : List Attribute
deriving DecidableEq

structure DefinitionStatement where
  lhs : Ident
  rhs : Ident
deriving DecidableEq

inductive Statement where
  | Attribute (s : AttributeStatement)
  | Node (s : NodeStatement)
  | Edge (s : EdgeStatement)
  | Definition (s : DefinitionStatement)
deriving DecidableEq

structure Graph where
  kind : GraphKind
  strict : Bool
  statements : List Statement
deriving DecidableEq

/-! ## Parsers of attribute.rs -/

/-- attribute.rs shape_rule. -/
def shape_rule : Parser Shape :=
  ws (altP (altP (altP (altP (altP
    (mapP (tag ("box".toList)) (fun _ => Shape.Box))
    (mapP (tag ("polygon".toList)) (fun _ => Shape.Polygon)))
    (mapP (tag ("ellipse".toList)) (fun _ => Shape.Ellipse)))
    (mapP (tag ("oval".toList)) (fun _ => Shape.Oval)))
    (mapP (tag ("circle".toList)) (fun _ => Shape.Circle)))
    (mapP (tag ("point".toList)) (fun _ => Shape.Point)))

/-- attribute.rs style_rule. -/
def style_rule : Parser Style :=
  ws (altP (altP (altP (altP (altP (altP (altP (altP (altP (altP
    (mapP (tag ("dashed".toList)) (fun _ => Style.Dashed))
    (mapP (tag ("dotted".toList)) (fun _ => Style.Dotted)))
    (mapP (tag ("solid".toList)) (fun _ => Style.Solid)))
    (mapP (tag ("invis".toList)) (fun _ => Style.Invis)))
    (mapP (tag ("bold".toList)) (fun _ => Style.Bold)))
    (mapP (tag ("tapered".toList)) (fun _ => Style.Tapered)))
    (mapP (tag ("filled".toList)) (fun _ => Style.Filled)))
    (mapP (tag ("striped".toList)) (fun _ => Style.Striped)))
    (mapP (tag ("wedged".toList)) (fun _ => Style.Wedged)))
    (mapP (tag ("diagonals".toList)) (fun _ => Style.Diagonals)))
    (mapP (tag ("rounded".toList)) (fun _ => Style.Rounded)))

/-- attribute.rs styles_rule. -/
def styles_rule : Parser (List Style) :=
  separated_list1 (charP ',') style_rule

/-- attribute.rs attribute_rule: dispatch on the literal names style
and shape, then an optional trailing comma or semicolon separator. -/
def attribute_rule : Parser Attribute :=
  mapP
    (pairP
      (altP
        (mapP (sepPairP (ws (tag ("style".toList))) (charP '=') (ws styles_rule))
          (fun p => Attribute.Style p.2))
        (mapP (sepPairP (ws (tag ("shape".toList))) (charP '=') (ws shape_rule))
          (fun p => Attribute.Shape p.2)))
      (optP (ws (altP (charP ',') (charP ';')))))
    (fun p => p.1)

/-! ## Parsers of ir.rs -/

/-- ir.rs highbit: one or more characters in the octal range 200-377. -/
def highbit : Parser (List Char) := takeWhile1 isHighbit

/-- ir.rs string_ident_rule: a bare word, starting with an
alphabetic, highbit or underscore character, continuing with those or
digits. -/
def string_ident_rule : Parser Ident :=
  recognizeP
    (pairP
      (altP (altP alpha1 highbit) (tag ['_']))
      (many0 (altP (altP alphanumeric1 highbit) (tag ['_']))))

/-- ir.rs num_ident_rule: recognize(tuple((opt(tag("-")), digit1,
tag("."), digit0))). -/
def num_ident_rule : Parser Ident :=
  recognizeP
    (tuple3P (optP (tag ['-'])) digit1 (pairP (tag ['.']) digit0))

/-- ir.rs quote_string_fragment_rule: the escape sequence backslash
quote (yielding one quote), or take_until1 of the escape sequence, or
take_until1 of a quote. -/
def quote_string_fragment_rule : Parser (List Char) :=
  altP
    (valueP ['"'] (tag ['\\', '"']))
    (altP (takeUntil1 ['\\', '"']) (takeUntil1 ['"']))

/-- ir.rs quote_string_ident_rule: a quote, many0 fragments joined,
a closing quote. -/
def quote_string_ident_rule : Parser Ident :=
  delimitedP (charP '"')
    (mapP (many0 quote_string_fragment_rule) (fun v => v.flatten))
    (charP '"')

/-- ir.rs ident_rule: bare word, else numeral, else quoted string. -/
def ident_rule : Parser Ident :=
  altP (altP string_ident_rule num_ident_rule) quote_string_ident_rule

/-- ir.rs a_list_rule. -/
def a_list_rule : Parser (List Attribute) :=
  many1 attribute_rule

/-- ir.rs attr_list_rule: one or more bracketed attribute groups,
flattened. -/
def attr_list_rule : Parser (List Attribute) :=
  mapP
    (many1 (ws (delimitedP (charP '[') (ws a_list_rule) (charP ']'))))
    (fun lists => lists.flatten)

/-- ir.rs edge_statement_rule: an identifier, one or more pairs of
an edge operator and an identifier, and an optional attribute list. -/
def edge_statement_rule : Parser EdgeStatement :=
  mapP
    (tuple3P
      (ws ident_rule)
      (many1 (pairP (ws (altP (tag ['-', '-']) (tag ['-', '>']))) (ws ident_rule)))
      (optP attr_list_rule))
    (fun t =>
      { list := t.1 :: t.2.1.map (fun p => p.2),
        attributes := (t.2.2).getD [] })

/-- ir.rs node_statement_rule. -/
def node_statement_rule : Parser NodeStatement :=
  mapP
    (pairP (ws ident_rule) (optP attr_list_rule))
    (fun p => { name := p.1, attributes := p.2.getD [] })

/-- ir.rs attribute_statement_rule: one of the keywords graph, node,
edge, then a mandatory attribute list. -/
def attribute_statement_rule : Parser AttributeStatement :=
  mapP
    (pairP
      (ws (altP (altP
        (mapP (tag ("graph".toList)) (fun _ => AttributeKind.Graph))
        (mapP (tag ("node".toList)) (fun _ => AttributeKind.Node)))
        (mapP (tag ("edge".toList)) (fun _ => AttributeKind.Edge))))
      attr_list_rule)
    (fun p => { kind := p.1, attributes := p.2 })

/-- ir.rs definition_statement_rule. -/
def definition_statement_rule : Parser DefinitionStatement :=
  mapP
    (sepPairP (ws ident_rule) (charP '=') (ws ident_rule))
    (fun p => { lhs := p.1, rhs := p.2 })

/-- ir.rs statement_rule: ordered alternation edge, node,
definition, attribute block, wrapped in ws. -/
def statement_rule : Parser Statement :=
  ws (altP (altP (altP
    (mapP edge_statement_rule Statement.Edge)
    (mapP node_statement_rule Statement.Node))
    (mapP definition_statement_rule Statement.Definition))
    (mapP attribute_statement_rule Statement.Attribute))

/-- ir.rs statements_rule. -/
def statements_rule : Parser (List Statement) :=
  many0 statement_rule

/-- The opening and closing brace characters, by code point. -/
def lbrace : Char := Char.ofNat 123

def rbrace : Char := Char.ofNat 125

/-- ir.rs graph_rule: optional strict keyword, graph or digraph
keyword, brace-delimited statement sequence. -/
def graph_rule : Parser Graph :=
  mapP
    (tuple3P
      (ws (optP (tag ("strict".toList))))
      (ws (altP
        (mapP (tag ("graph".toList)) (fun _ => GraphKind.Undirected))
        (mapP (tag ("digraph".toList)) (fun _ => GraphKind.Directed))))
      (delimitedP (ws (charP lbrace)) statements_rule (ws (charP rbrace))))
    (fun t => { kind := t.2.1, strict := (t.1).isSome, statements := t.2.2 })

/-- ir.rs enum GraphParseError.  The ParseError variant of the source
carries the VerboseError trace; no claim depends on its contents, so
it is not modelled. -/
inductive GraphParseError where
  | UnexpectedEof
  | UnexpectedInput (rest : Input)
  | ParseError
deriving DecidableEq

/-- ir.rs parse_graph: run the graph grammar, then classify.  The
source tests rest.trim().is_empty(), which holds exactly when every
remaining character is Rust whitespace. -/
def parse_graph (i : Input) : Except GraphParseError Graph :=
  match graph_rule i with
  | .ok (rest, g) =>
    if rest.all rustIsWhitespace then .ok g
    else .error (GraphParseError.UnexpectedInput rest)
  | .error NomErr.Incomplete => .error GraphParseError.UnexpectedEof
  | .error _ => .error GraphParseError.ParseError

/-! ## Specification-side helper definitions

These definitions are used only to state properties; none of them is
part of the embedded program. -/

/-- Whether needle occurs as a contiguous sublist. -/
def hasSub (needle : List Char) : List Char → Bool
  | [] => needle.isEmpty
  | c :: rest => needle.isPrefixOf (c :: rest) || hasSub needle rest

/-- The two-character escape sequence of the quoted-string grammar:
a backslash followed by a double quote. -/
def escSeq : List Char := ['\\', '"']

/-- Every double quote in the list is escaped, that is, pairing the
two-character sequences backslash-quote from the left, no bare
double quote remains.  Inputs of the form quote ++ body with
noUnescapedQuote body are exactly the quoted-string inputs with no
unescaped closing quote. -/
def noUnescapedQuote : List Char → Bool
  | [] => true
  | [c] => decide (c ≠ '"')
  | c :: d :: rest =>
    if c = '\\' && d = '"' then noUnescapedQuote rest
    else if c = '"' then false
    else noUnescapedQuote (d :: rest)

/-- Reference scanner for the body of a quoted string (the input after
the opening quote), describing what the source scanner actually does.
Reading left to right: the escape sequence backslash-quote contributes
one literal quote; a bare quote closes the string only when no escape
sequence occurs anywhere after it, and is otherwise absorbed into the
string as a literal character (because take_until1 of the escape
sequence jumps over it); any other character is literal; reaching the
end without a closing quote fails.  Returns the unescaped string value
and the input remaining after the closing quote. -/
def quoteBodySpec : List Char → Option (List Char × List Char)
  | [] => none
  | [c] => if c = '"' then some ([], []) else none
  | c :: d :: rest =>
    if c = '\\' && d = '"' then
      (quoteBodySpec rest).map (fun p => ('"' :: p.1, p.2))
    else if c = '"' && hasSub escSeq (d :: rest) then
      (quoteBodySpec (d :: rest)).map (fun p => ('"' :: p.1, p.2))
    else if c = '"' then some ([], d :: rest)
    else (quoteBodySpec (d :: rest)).map (fun p => (c :: p.1, p.2))

/-- The shape of a numeral accepted by num_ident_rule, as the spec
describes it: an optional leading minus sign, one or more digits, a
mandatory decimal point, zero or more trailing digits. -/
def numeralShape (v : List Char) : Prop :=
  ∃ ds fs, ds ≠ [] ∧ ds.all isAsciiDigit = true ∧ fs.all isAsciiDigit = true ∧
    (v = ds ++ '.' :: fs ∨ v = '-' :: (ds ++ '.' :: fs))

/-- A parser that can fail only with the recoverable Err::Error kind
(never Err::Failure or Err::Incomplete).  Every parser built from the
complete-input combinators of this development has this property. -/
def OnlyError {α : Type} (p : Parser α) : Prop :=
  ∀ i e, p i = .error e → e = NomErr.Error

/-- A parser that always consumes at least one character when it
succeeds. -/
def Consuming {α : Type} (p : Parser α) : Prop :=
  ∀ i r v, p i = .ok (r, v) → r.length < i.length

/-- Observer: does a result of the statement rule hold an
attribute-block statement (the Statement.Attribute variant)? -/
def isAttributeStatement (x : PResult Statement) : Bool :=
  match x with
  | .ok (_, Statement.Attribute _) => true
  | _ => false

/-- Observer: is an entry-point result the unexpected-end-of-input
error kind? -/
def isUnexpectedEof (x : Except GraphParseError Graph) : Bool :=
  match x with
  | .error GraphParseError.UnexpectedEof => true
  | _ => false

/-! ## Error-kind lemmas

Every parser of the development fails only with the recoverable
Err::Error kind, because every primitive does and every combinator
preserves the property. -/

theorem onlyError_tag (t : List Char) : OnlyError (tag t) := by
  intro i e h
  unfold tag at h
  split at h
  · cases h
  · cases h; rfl

theorem onlyError_charP (c : Char) : OnlyError (charP c) := by
  intro i e h
  unfold charP at h
  cases i with
  | nil => cases h; rfl
  | cons c2 rest =>
    dsimp only at h
    split at h
    · cases h
    · cases h; rfl

theorem onlyError_takeWhile1 (p : Char → Bool) : OnlyError (takeWhile1 p) := by
  intro i e h
  unfold takeWhile1 at h
  split at h
  · cases h; rfl
  · cases h

theorem onlyError_digit0 : OnlyError digit0 := by
  intro i e h
  cases h

theorem onlyError_takeUntil1 (n : List Char) : OnlyError (takeUntil1 n) := by
  intro i e h
  unfold takeUntil1 at h
  split at h
  · cases h; rfl
  · cases h; rfl
  · cases h

theorem onlyError_altP {α : Type} {p q : Parser α}
    (hp : OnlyError p) (hq : OnlyError q) : OnlyError (altP p q) := by
  intro i e h
  unfold altP at h
  split at h
  · cases h
  · exact hq i e h
  · rename_i e1 hne heq
    cases h
    exact hp i e heq

theorem optP_ok {α : Type} {p : Parser α} (hp : OnlyError p) (i : Input) :
    ∃ r v, optP p i = .ok (r, v) := by
  unfold optP
  match hpi : p i with
  | .ok (r, v) => exact ⟨r, some v, rfl⟩
  | .error e =>
    have he := hp i e hpi
    subst he
    exact ⟨i, none, rfl⟩

theorem onlyError_optP {α : Type} {p : Parser α} (hp : OnlyError p) :
    OnlyError (optP p) := by
  intro i e h
  obtain ⟨r, v, hok⟩ := optP_ok hp i
  rw [hok] at h
  cases h

theorem onlyError_mapP {α β : Type} {p : Parser α} (f : α → β)
    (hp : OnlyError p) : OnlyError (mapP p f) := by
  intro i e h
  unfold mapP at h
  split at h
  · cases h
  · rename_i heq
    cases h
    exact hp i e heq

theorem onlyError_valueP {α β : Type} {p : Parser α} (v : β)
    (hp : OnlyError p) : OnlyError (valueP v p) :=
  onlyError_mapP _ hp

theorem onlyError_recognizeP {α : Type} {p : Parser α}
    (hp : OnlyError p) : OnlyError (recognizeP p) := by
  intro i e h
  unfold recognizeP at h
  split at h
  · cases h
  · rename_i heq
    cases h
    exact hp i e heq

theorem onlyError_pairP {α β : Type} {p : Parser α} {q : Parser β}
    (hp : OnlyError p) (hq : OnlyError q) : OnlyError (pairP p q) := by
  intro i e h
  unfold pairP at h
  split at h
  · rename_i heq
    cases h
    exact hp i e heq
  · rename_i i1 a heq
    split at h
    · rename_i heq2
      cases h
      exact hq i1 e heq2
    · cases h

theorem onlyError_tuple3P {α β γ : Type} {p : Parser α} {q : Parser β} {r : Parser γ}
    (hp : OnlyError p) (hq : OnlyError q) (hr : OnlyError r) :
    OnlyError (tuple3P p q r) := by
  intro i e h
  unfold tuple3P at h
  split at h
  · rename_i heq
    cases h
    exact hp i e heq
  · rename_i i1 a heq
    split at h
    · rename_i heq2
      cases h
      exact hq i1 e heq2
    · rename_i i2 b heq2
      split at h
      · rename_i heq3
        cases h
        exact hr i2 e heq3
      · cases h

theorem onlyError_sepPairP {α β γ : Type} {p : Parser α} {s : Parser β} {q : Parser γ}
    (hp : OnlyError p) (hs : OnlyError s) (hq : OnlyError q) :
    OnlyError (sepPairP p s q) := by
  intro i e h
  unfold sepPairP at h
  split at h
  · rename_i heq
    cases h
    exact hp i e heq
  · rename_i i1 a heq
    split at h
    · rename_i heq2
      cases h
      exact hs i1 e heq2
    · rename_i i2 b heq2
      split at h
      · rename_i heq3
        cases h
        exact hq i2 e heq3
      · cases h

theorem onlyError_delimitedP {α β γ : Type}
    {p : Parser α} {q : Parser β} {r : Parser γ}
    (hp : OnlyError p) (hq : OnlyError q) (hr : OnlyError r) :
    OnlyError (delimitedP p q r) := by
  intro i e h
  unfold delimitedP at h
  split at h
  · rename_i heq
    cases h
    exact hp i e heq
  · rename_i i1 a heq
    split at h
    · rename_i heq2
      cases h
      exact hq i1 e heq2
    · rename_i i2 b heq2
      split at h
      · rename_i heq3
        cases h
        exact hr i2 e heq3
      · cases h

theorem onlyError_many0Aux {α : Type} {p : Parser α} (hp : OnlyError p) :
    ∀ fuel i e, many0Aux p fuel i = .error e → e = NomErr.Error := by
  intro fuel
  induction fuel with
  | zero =>
    intro i e h
    unfold many0Aux at h
    cases h; rfl
  | succ fuel ih =>
    intro i e h
    unfold many0Aux at h
    split at h
    · cases h
    · rename_i e1 hne heq
      cases h
      exact hp i e heq
    · rename_i i1 o heq
      split at h
      · split at h
        · cases h
        · rename_i heq2
          cases h
          exact ih i1 e heq2
      · cases h; rfl

theorem onlyError_many0 {α : Type} {p : Parser α} (hp : OnlyError p) :
    OnlyError (many0 p) := by
  intro i e h
  exact onlyError_many0Aux hp _ i e h

theorem onlyError_many1 {α : Type} {p : Parser α} (hp : OnlyError p) :
    OnlyError (many1 p) := by
  intro i e h
  unfold many1 at h
  split at h
  · rename_i heq
    cases h
    exact hp i e heq
  · rename_i i1 o heq
    split at h
    · cases h
    · rename_i heq2
      cases h
      exact onlyError_many0 hp i1 e heq2

theorem onlyError_sepList1Aux {α β : Type} {sep : Parser β} {p : Parser α}
    (hs : OnlyError sep) (hp : OnlyError p) :
    ∀ fuel i acc e, sepList1Aux sep p fuel i acc = .error e → e = NomErr.Error := by
  intro fuel
  induction fuel with
  | zero =>
    intro i acc e h
    unfold sepList1Aux at h
    cases h; rfl
  | succ fuel ih =>
    intro i acc e h
    unfold sepList1Aux at h
    split at h
    · cases h
    · rename_i e1 hne heq
      cases h
      exact hs i e heq
    · rename_i i1 o heq
      split at h
      · split at h
        · cases h
        · rename_i e1 hne heq2
          cases h
          exact hp i1 e heq2
        · rename_i i2 o2 heq2
          exact ih i2 _ e h
      · cases h; rfl

theorem onlyError_sepList1 {α β : Type} {sep : Parser β} {p : Parser α}
    (hs : OnlyError sep) (hp : OnlyError p) :
    OnlyError (separated_list1 sep p) := by
  intro i e h
  unfold separated_list1 at h
  split at h
  · rename_i heq
    cases h
    exact hp i e heq
  · rename_i i1 o heq
    exact onlyError_sepList1Aux hs hp _ i1 [o] e h

theorem onlyError_ws {α : Type} {p : Parser α} (hp : OnlyError p) :
    OnlyError (ws p) := by
  intro i e h
  unfold ws at h
  split at h
  · cases h
  · rename_i heq
    cases h
    exact hp _ e heq

/-! ## Consumption lemmas -/

theorem findSubstring_le_length (n : List Char) :
    ∀ l k, findSubstring n l = some k → k ≤ l.length := by
  intro l
  induction l with
  | nil =>
    intro k h
    unfold findSubstring at h
    split at h
    · cases h; exact Nat.le_refl 0
    · cases h
  | cons c rest ih =>
    intro k h
    unfold findSubstring at h
    split at h
    · cases h; exact Nat.zero_le _
    · rw [Option.map_eq_some'] at h
      obtain ⟨k0, hk0, rfl⟩ := h
      have := ih k0 hk0
      simp only [List.length_cons]
      omega

theorem consuming_tag {t : List Char} (ht : t ≠ []) : Consuming (tag t) := by
  intro i r v h
  unfold tag at h
  split at h
  · rename_i hpre
    cases h
    have hle : t.length ≤ i.length := by
      rw [List.isPrefixOf_iff_prefix] at hpre
      exact hpre.length_le
    have ht1 : 1 ≤ t.length := by
      cases t with
      | nil => exact absurd rfl ht
      | cons a b => simp only [List.length_cons]; omega
    rw [List.length_drop]
    omega
  · cases h

theorem consuming_charP (c : Char) : Consuming (charP c) := by
  intro i r v h
  unfold charP at h
  cases i with
  | nil => cases h
  | cons c2 rest =>
    dsimp only at h
    split at h
    · cases h
      simp only [List.length_cons]
      omega
    · cases h

theorem length_takeWhile_le (p : Char → Bool) (l : List Char) :
    (l.takeWhile p).length ≤ l.length := by
  induction l with
  | nil => simp [List.takeWhile]
  | cons c t ih =>
    rw [List.takeWhile_cons]
    split
    · simp only [List.length_cons]
      omega
    · simp

theorem consuming_takeWhile1 (p : Char → Bool) : Consuming (takeWhile1 p) := by
  intro i r v h
  unfold takeWhile1 at h
  split at h
  · cases h
  · rename_i c cs heq
    cases h
    have hle : (i.takeWhile p).length ≤ i.length := length_takeWhile_le p i
    rw [heq] at hle
    simp only [List.length_cons] at hle
    rw [List.length_drop]
    simp only [List.length_cons]
    omega

theorem consuming_takeUntil1 (n : List Char) : Consuming (takeUntil1 n) := by
  intro i r v h
  unfold takeUntil1 at h
  split at h
  · cases h
  · cases h
  · rename_i k heq
    cases h
    have := findSubstring_le_length n i (k + 1) heq
    rw [List.length_drop]
    omega

theorem consuming_altP {α : Type} {p q : Parser α}
    (hp : Consuming p) (hq : Consuming q) : Consuming (altP p q) := by
  intro i r v h
  unfold altP at h
  split at h
  · cases h
    exact hp i r v (by assumption)
  · exact hq i r v h
  · cases h

theorem consuming_mapP {α β : Type} {p : Parser α} (f : α → β)
    (hp : Consuming p) : Consuming (mapP p f) := by
  intro i r v h
  unfold mapP at h
  split at h
  · rename_i heq
    cases h
    exact hp i r _ heq
  · cases h

theorem consuming_valueP {α β : Type} {p : Parser α} (v : β)
    (hp : Consuming p) : Consuming (valueP v p) :=
  consuming_mapP _ hp

/-! ## Elimination and introduction lemmas for the combinators -/

theorem tag_ok_elim {t i r v} (h : tag t i = .ok (r, v)) :
    v = t ∧ i = t ++ r := by
  unfold tag at h
  split at h
  · rename_i hpre
    cases h
    rw [List.isPrefixOf_iff_prefix] at hpre
    obtain ⟨s, rfl⟩ := hpre
    rw [List.drop_left]
    exact ⟨rfl, rfl⟩
  · cases h

theorem tag_ok_intro (t r : List Char) : tag t (t ++ r) = .ok (r, t) := by
  unfold tag
  rw [if_pos, List.drop_left]
  rw [List.isPrefixOf_iff_prefix]
  exact ⟨r, rfl⟩

theorem charP_ok_elim {c i r v} (h : charP c i = .ok (r, v)) :
    v = c ∧ i = c :: r := by
  unfold charP at h
  cases i with
  | nil => cases h
  | cons c2 rest =>
    dsimp only at h
    split at h
    · rename_i hc
      cases h
      exact ⟨rfl, by rw [hc]⟩
    · cases h

theorem mapP_ok_elim {α β : Type} {p : Parser α} {f : α → β} {i r b}
    (h : mapP p f i = .ok (r, b)) : ∃ a, p i = .ok (r, a) ∧ b = f a := by
  unfold mapP at h
  split at h
  · rename_i heq
    cases h
    exact ⟨_, heq, rfl⟩
  · cases h

theorem mapP_error_elim {α β : Type} {p : Parser α} {f : α → β} {i e}
    (h : mapP p f i = .error e) : p i = .error e := by
  unfold mapP at h
  split at h
  · cases h
  · rename_i heq
    cases h
    exact heq

theorem altP_ok_elim {α : Type} {p q : Parser α} {i r v}
    (h : altP p q i = .ok (r, v)) :
    p i = .ok (r, v) ∨ (p i = .error NomErr.Error ∧ q i = .ok (r, v)) := by
  unfold altP at h
  split at h
  · cases h
    exact Or.inl (by assumption)
  · exact Or.inr ⟨by assumption, h⟩
  · cases h

theorem altP_error_elim {α : Type} {p q : Parser α} (hp : OnlyError p) {i e}
    (h : altP p q i = .error e) :
    p i = .error NomErr.Error ∧ q i = .error e := by
  unfold altP at h
  cases hpi : p i with
  | ok a =>
    rw [hpi] at h
    exact Except.noConfusion h
  | error e1 =>
    have he1 := hp i e1 hpi
    subst he1
    rw [hpi] at h
    exact ⟨rfl, h⟩

theorem pairP_ok_elim {α β : Type} {p : Parser α} {q : Parser β} {i r v}
    (h : pairP p q i = .ok (r, v)) :
    ∃ i1, p i = .ok (i1, v.1) ∧ q i1 = .ok (r, v.2) := by
  unfold pairP at h
  split at h
  · cases h
  · rename_i i1 a heq
    split at h
    · cases h
    · rename_i i2 b heq2
      cases h
      exact ⟨i1, heq, heq2⟩

theorem pairP_error_elim {α β : Type} {p : Parser α} {q : Parser β} {i e}
    (h : pairP p q i = .error e) :
    p i = .error e ∨ ∃ i1 a, p i = .ok (i1, a) ∧ q i1 = .error e := by
  unfold pairP at h
  split at h
  · rename_i heq
    cases h
    exact Or.inl heq
  · rename_i i1 a heq
    split at h
    · rename_i heq2
      cases h
      exact Or.inr ⟨i1, a, heq, heq2⟩
    · cases h

theorem tuple3P_ok_elim {α β γ : Type} {p : Parser α} {q : Parser β} {s : Parser γ}
    {i r v} (h : tuple3P p q s i = .ok (r, v)) :
    ∃ i1 i2, p i = .ok (i1, v.1) ∧ q i1 = .ok (i2, v.2.1) ∧ s i2 = .ok (r, v.2.2) := by
  unfold tuple3P at h
  split at h
  · cases h
  · rename_i i1 a heq
    split at h
    · cases h
    · rename_i i2 b heq2
      split at h
      · cases h
      · rename_i i3 c heq3
        cases h
        exact ⟨i1, i2, heq, heq2, heq3⟩

theorem sepPairP_ok_elim {α β γ : Type} {p : Parser α} {s : Parser β} {q : Parser γ}
    {i r v} (h : sepPairP p s q i = .ok (r, v)) :
    ∃ i1 i2 b, p i = .ok (i1, v.1) ∧ s i1 = .ok (i2, b) ∧ q i2 = .ok (r, v.2) := by
  unfold sepPairP at h
  split at h
  · cases h
  · rename_i i1 a heq
    split at h
    · cases h
    · rename_i i2 b heq2
      split at h
      · cases h
      · rename_i i3 c heq3
        cases h
        exact ⟨i1, i2, b, heq, heq2, heq3⟩

theorem delimitedP_ok_elim {α β γ : Type} {p : Parser α} {q : Parser β} {s : Parser γ}
    {i r v} (h : delimitedP p q s i = .ok (r, v)) :
    ∃ i1 i2 a c, p i = .ok (i1, a) ∧ q i1 = .ok (i2, v) ∧ s i2 = .ok (r, c) := by
  unfold delimitedP at h
  split at h
  · cases h
  · rename_i i1 a heq
    split at h
    · cases h
    · rename_i i2 b heq2
      split at h
      · cases h
      · rename_i i3 c heq3
        cases h
        exact ⟨i1, i2, a, c, heq, heq2, heq3⟩

theorem optP_ok_elim {α : Type} {p : Parser α} {i r v}
    (h : optP p i = .ok (r, v)) :
    (∃ a, v = some a ∧ p i = .ok (r, a)) ∨
      (v = none ∧ r = i ∧ p i = .error NomErr.Error) := by
  unfold optP at h
  split at h
  · rename_i r0 a heq
    cases h
    exact Or.inl ⟨a, rfl, heq⟩
  · rename_i heq
    cases h
    exact Or.inr ⟨rfl, rfl, heq⟩
  · cases h

theorem ws_ok_elim {α : Type} {p : Parser α} {i r v}
    (h : ws p i = .ok (r, v)) :
    ∃ r0, p (i.dropWhile isWsChar) = .ok (r0, v) ∧ r = r0.dropWhile isWsChar := by
  unfold ws at h
  split at h
  · rename_i r0 v0 heq
    cases h
    exact ⟨r0, heq, rfl⟩
  · cases h

theorem ws_error_elim {α : Type} {p : Parser α} {i e}
    (h : ws p i = .error e) : p (i.dropWhile isWsChar) = .error e := by
  unfold ws at h
  split at h
  · cases h
  · rename_i heq
    cases h
    exact heq

theorem ws_ok_intro {α : Type} {p : Parser α} {i r0 v}
    (h : p (i.dropWhile isWsChar) = .ok (r0, v)) :
    ws p i = .ok (r0.dropWhile isWsChar, v) := by
  unfold ws
  rw [h]

/-! ## Lemmas about the repetition loops -/

theorem many0Aux_fuel_irrel {α : Type} {p : Parser α} (hc : Consuming p) :
    ∀ f1 f2 i, i.length < f1 → i.length < f2 →
      many0Aux p f1 i = many0Aux p f2 i := by
  intro f1
  induction f1 with
  | zero =>
    intro f2 i h1 h2
    omega
  | succ f1 ih =>
    intro f2 i h1 h2
    cases f2 with
    | zero => omega
    | succ f2 =>
      unfold many0Aux
      cases hpi : p i with
      | error e =>
        cases e <;> rfl
      | ok a =>
        obtain ⟨i1, o⟩ := a
        have hlt : i1.length < i.length := hc i i1 o hpi
        dsimp only
        rw [if_pos hlt, if_pos hlt, ih f2 i1 (by omega) (by omega)]

theorem many0_stop {α : Type} {p : Parser α} {i}
    (h : p i = .error NomErr.Error) : many0 p i = .ok (i, []) := by
  unfold many0 many0Aux
  rw [h]

theorem many0_step {α : Type} {p : Parser α} (hc : Consuming p) {i i1 o}
    (h : p i = .ok (i1, o)) :
    many0 p i =
      (match many0 p i1 with
       | .ok (r, acc) => .ok (r, o :: acc)
       | .error e => .error e) := by
  have hlt : i1.length < i.length := hc i i1 o h
  show many0Aux p (i.length + 1) i = _
  unfold many0Aux
  rw [h]
  dsimp only
  rw [if_pos hlt]
  rw [many0Aux_fuel_irrel hc i.length (i1.length + 1) i1 (by omega) (by omega)]
  rfl

theorem many0_ok {α : Type} {p : Parser α} (hp : OnlyError p) (hc : Consuming p) :
    ∀ i, ∃ r acc, many0 p i = .ok (r, acc) := by
  suffices H : ∀ n i, (i : Input).length ≤ n → ∃ r acc, many0 p i = .ok (r, acc) by
    intro i; exact H i.length i (Nat.le_refl _)
  intro n
  induction n with
  | zero =>
    intro i hlen
    cases hpi : p i with
    | error e =>
      have := hp i e hpi
      subst this
      exact ⟨i, [], many0_stop hpi⟩
    | ok a =>
      obtain ⟨i1, o⟩ := a
      have := hc i i1 o hpi
      omega
  | succ n ih =>
    intro i hlen
    cases hpi : p i with
    | error e =>
      have := hp i e hpi
      subst this
      exact ⟨i, [], many0_stop hpi⟩
    | ok a =>
      obtain ⟨i1, o⟩ := a
      have hlt := hc i i1 o hpi
      obtain ⟨r, acc, hrec⟩ := ih i1 (by omega)
      refine ⟨r, o :: acc, ?_⟩
      rw [many0_step hc hpi, hrec]

theorem many0Aux_mem {α : Type} {p : Parser α} :
    ∀ fuel i r acc, many0Aux p fuel i = .ok (r, acc) →
      ∀ x ∈ acc, ∃ j r2, p j = .ok (r2, x) := by
  intro fuel
  induction fuel with
  | zero =>
    intro i r acc h
    unfold many0Aux at h
    cases h
  | succ fuel ih =>
    intro i r acc h
    unfold many0Aux at h
    split at h
    · cases h
      intro x hx
      cases hx
    · cases h
    · rename_i i1 o heq
      split at h
      · split at h
        · rename_i r2 acc2 heq2
          cases h
          intro x hx
          cases hx with
          | head => exact ⟨i, i1, heq⟩
          | tail _ hmem => exact ih i1 _ _ heq2 x hmem
        · cases h
      · cases h

theorem many0_mem {α : Type} {p : Parser α} {i r acc}
    (h : many0 p i = .ok (r, acc)) :
    ∀ x ∈ acc, ∃ j r2, p j = .ok (r2, x) :=
  many0Aux_mem _ i r acc h

theorem many1_ok_elim {α : Type} {p : Parser α} {i r l}
    (h : many1 p i = .ok (r, l)) :
    ∃ i1 o acc, p i = .ok (i1, o) ∧ l = o :: acc ∧ many0 p i1 = .ok (r, acc) := by
  unfold many1 at h
  cases hpi : p i with
  | error e =>
    rw [hpi] at h
    exact Except.noConfusion h
  | ok a =>
    obtain ⟨i1, o⟩ := a
    rw [hpi] at h
    dsimp only at h
    cases hm : many0 p i1 with
    | error e =>
      rw [hm] at h
      exact Except.noConfusion h
    | ok b =>
      obtain ⟨r2, acc⟩ := b
      rw [hm] at h
      cases h
      exact ⟨i1, o, acc, rfl, rfl, hm⟩

/-! ## OnlyError instances for the concrete parsers -/

theorem onlyError_string_ident : OnlyError string_ident_rule := by
  unfold string_ident_rule
  repeat
    first
    | exact onlyError_tag _
    | exact onlyError_takeWhile1 _
    | apply onlyError_recognizeP
    | apply onlyError_pairP
    | apply onlyError_altP
    | apply onlyError_many0

theorem onlyError_num_ident : OnlyError num_ident_rule := by
  unfold num_ident_rule
  repeat
    first
    | exact onlyError_tag _
    | exact onlyError_takeWhile1 _
    | exact onlyError_digit0
    | apply onlyError_recognizeP
    | apply onlyError_tuple3P
    | apply onlyError_pairP
    | apply onlyError_optP

theorem onlyError_fragment : OnlyError quote_string_fragment_rule := by
  unfold quote_string_fragment_rule
  repeat
    first
    | exact onlyError_tag _
    | exact onlyError_takeUntil1 _
    | apply onlyError_valueP
    | apply onlyError_altP

theorem onlyError_quote_ident : OnlyError quote_string_ident_rule := by
  unfold quote_string_ident_rule
  repeat
    first
    | exact onlyError_fragment
    | exact onlyError_charP _
    | apply onlyError_delimitedP
    | apply onlyError_mapP
    | apply onlyError_many0

theorem onlyError_ident : OnlyError ident_rule := by
  unfold ident_rule
  repeat
    first
    | exact onlyError_string_ident
    | exact onlyError_num_ident
    | exact onlyError_quote_ident
    | apply onlyError_altP

theorem onlyError_shape : OnlyError shape_rule := by
  unfold shape_rule
  repeat
    first
    | exact onlyError_tag _
    | apply onlyError_ws
    | apply onlyError_altP
    | apply onlyError_mapP

theorem onlyError_style : OnlyError style_rule := by
  unfold style_rule
  repeat
    first
    | exact onlyError_tag _
    | apply onlyError_ws
    | apply onlyError_altP
    | apply onlyError_mapP

theorem onlyError_styles : OnlyError styles_rule := by
  unfold styles_rule
  exact onlyError_sepList1 (onlyError_charP _) onlyError_style

theorem onlyError_attribute : OnlyError attribute_rule := by
  unfold attribute_rule
  repeat
    first
    | exact onlyError_tag _
    | exact onlyError_charP _
    | exact onlyError_styles
    | exact onlyError_shape
    | apply onlyError_ws
    | apply onlyError_mapP
    | apply onlyError_pairP
    | apply onlyError_altP
    | apply onlyError_sepPairP
    | apply onlyError_optP

theorem onlyError_a_list : OnlyError a_list_rule := by
  unfold a_list_rule
  exact onlyError_many1 onlyError_attribute

theorem onlyError_attr_list : OnlyError attr_list_rule := by
  unfold attr_list_rule
  repeat
    first
    | exact onlyError_a_list
    | exact onlyError_charP _
    | apply onlyError_mapP
    | apply onlyError_many1
    | apply onlyError_ws
    | apply onlyError_delimitedP

theorem onlyError_edge_statement : OnlyError edge_statement_rule := by
  unfold edge_statement_rule
  repeat
    first
    | exact onlyError_ident
    | exact onlyError_attr_list
    | exact onlyError_tag _
    | apply onlyError_mapP
    | apply onlyError_tuple3P
    | apply onlyError_ws
    | apply onlyError_many1
    | apply onlyError_pairP
    | apply onlyError_altP
    | apply onlyError_optP

theorem onlyError_node_statement : OnlyError node_statement_rule := by
  unfold node_statement_rule
  repeat
    first
    | exact onlyError_ident
    | exact onlyError_attr_list
    | apply onlyError_mapP
    | apply onlyError_pairP
    | apply onlyError_ws
    | apply onlyError_optP

theorem onlyError_attribute_statement : OnlyError attribute_statement_rule := by
  unfold attribute_statement_rule
  repeat
    first
    | exact onlyError_tag _
    | exact onlyError_attr_list
    | apply onlyError_mapP
    | apply onlyError_pairP
    | apply onlyError_ws
    | apply onlyError_altP

theorem onlyError_definition_statement : OnlyError definition_statement_rule := by
  unfold definition_statement_rule
  repeat
    first
    | exact onlyError_ident
    | exact onlyError_charP _
    | apply onlyError_mapP
    | apply onlyError_sepPairP
    | apply onlyError_ws

theorem onlyError_statement : OnlyError statement_rule := by
  unfold statement_rule
  repeat
    first
    | exact onlyError_edge_statement
    | exact onlyError_node_statement
    | exact onlyError_definition_statement
    | exact onlyError_attribute_statement
    | apply onlyError_ws
    | apply onlyError_altP
    | apply onlyError_mapP

theorem onlyError_statements : OnlyError statements_rule := by
  unfold statements_rule
  exact onlyError_many0 onlyError_statement

theorem onlyError_graph : OnlyError graph_rule := by
  unfold graph_rule
  repeat
    first
    | exact onlyError_statements
    | exact onlyError_tag _
    | exact onlyError_charP _
    | apply onlyError_mapP
    | apply onlyError_tuple3P
    | apply onlyError_ws
    | apply onlyError_optP
    | apply onlyError_altP
    | apply onlyError_delimitedP

/-! ## Consuming instances -/

theorem consuming_continue_char :
    Consuming (altP (altP alphanumeric1 highbit) (tag ['_'])) := by
  unfold alphanumeric1 highbit
  exact consuming_altP (consuming_altP (consuming_takeWhile1 _) (consuming_takeWhile1 _))
    (consuming_tag (by simp))

theorem consuming_fragment : Consuming quote_string_fragment_rule := by
  unfold quote_string_fragment_rule
  exact consuming_altP (consuming_valueP _ (consuming_tag (by simp)))
    (consuming_altP (consuming_takeUntil1 _) (consuming_takeUntil1 _))

/-! ## Success of the identifier rule on alphabetic input -/

theorem takeWhile1_ok_of_head {p : Char → Bool} {c : Char} (hc : p c = true) (t : Input) :
    takeWhile1 p (c :: t) = .ok ((c :: t).drop (c :: t.takeWhile p).length, c :: t.takeWhile p) := by
  unfold takeWhile1
  rw [List.takeWhile_cons, if_pos hc]

theorem ident_ok_of_alpha {c : Char} (hc : isAsciiAlpha c = true) (t : Input) :
    ∃ r v, ident_rule (c :: t) = .ok (r, v) := by
  have halpha := takeWhile1_ok_of_head (p := isAsciiAlpha) hc t
  have hstart :
      altP (altP alpha1 highbit) (tag ['_']) (c :: t) =
        .ok ((c :: t).drop (c :: t.takeWhile isAsciiAlpha).length, c :: t.takeWhile isAsciiAlpha) := by
    unfold altP alpha1
    rw [halpha]
  obtain ⟨r2, acc, hmany⟩ :=
    many0_ok (p := altP (altP alphanumeric1 highbit) (tag ['_']))
      (onlyError_altP (onlyError_altP (onlyError_takeWhile1 _) (onlyError_takeWhile1 _))
        (onlyError_tag _))
      consuming_continue_char
      ((c :: t).drop (c :: t.takeWhile isAsciiAlpha).length)
  refine ⟨r2, (c :: t).take ((c :: t).length - r2.length), ?_⟩
  unfold ident_rule
  unfold altP
  unfold string_ident_rule
  unfold recognizeP
  unfold pairP
  rw [hstart]
  dsimp only
  rw [hmany]

/-! ## Claim C4: the attribute-block alternative is unreachable -/

theorem node_error_imp_ident_error {j : Input}
    (h : node_statement_rule j = .error NomErr.Error) :
    ident_rule (j.dropWhile isWsChar) = .error NomErr.Error := by
  unfold node_statement_rule at h
  have hpair := mapP_error_elim h
  rcases pairP_error_elim hpair with hws | ⟨i1, a, _, hopt⟩
  · exact ws_error_elim hws
  · obtain ⟨r2, v2, hok⟩ := optP_ok onlyError_attr_list i1
    rw [hok] at hopt
    exact Except.noConfusion hopt

theorem attribute_statement_head_alpha {j : Input} {r0 : Input} {a : AttributeStatement}
    (h : attribute_statement_rule j = .ok (r0, a)) :
    ∃ c t', j.dropWhile isWsChar = c :: t' ∧ isAsciiAlpha c = true := by
  unfold attribute_statement_rule at h
  obtain ⟨p1, hpair, _⟩ := mapP_ok_elim h
  obtain ⟨i1, hws3, _⟩ := pairP_ok_elim hpair
  obtain ⟨r3, halt3, _⟩ := ws_ok_elim hws3
  rcases altP_ok_elim halt3 with h3 | ⟨_, h3⟩
  · rcases altP_ok_elim h3 with h4 | ⟨_, h4⟩
    · obtain ⟨a4, htag, _⟩ := mapP_ok_elim h4
      obtain ⟨_, heq⟩ := tag_ok_elim htag
      exact ⟨'g', ("raph".toList) ++ r3, by rw [heq]; rfl, by decide⟩
    · obtain ⟨a4, htag, _⟩ := mapP_ok_elim h4
      obtain ⟨_, heq⟩ := tag_ok_elim htag
      exact ⟨'n', ("ode".toList) ++ r3, by rw [heq]; rfl, by decide⟩
  · obtain ⟨a4, htag, _⟩ := mapP_ok_elim h3
    obtain ⟨_, heq⟩ := tag_ok_elim htag
    exact ⟨'e', ("dge".toList) ++ r3, by rw [heq]; rfl, by decide⟩

/-- The statement rule never succeeds with an attribute-block
statement.  The attribute alternative is tried last, and whenever its
leading keyword (graph, node or edge) matches, that keyword is itself
a valid bare-word identifier, so the earlier node alternative (or the
edge alternative) already succeeds; conversely, when the node
alternative fails, the identifier rule has failed, hence so has the
keyword, and the attribute alternative fails as well. -/
theorem statement_never_attribute :
    ∀ i r s, statement_rule i ≠ .ok (r, Statement.Attribute s) := by
  intro i r s h
  unfold statement_rule at h
  obtain ⟨r0, halt, _⟩ := ws_ok_elim h
  rcases altP_ok_elim halt with hX | ⟨hXerr, hA⟩
  · rcases altP_ok_elim hX with hEN | ⟨_, hD⟩
    · rcases altP_ok_elim hEN with hE | ⟨_, hN⟩
      · obtain ⟨a, _, hcontr⟩ := mapP_ok_elim hE
        exact Statement.noConfusion hcontr
      · obtain ⟨a, _, hcontr⟩ := mapP_ok_elim hN
        exact Statement.noConfusion hcontr
    · obtain ⟨a, _, hcontr⟩ := mapP_ok_elim hD
      exact Statement.noConfusion hcontr
  · have hEN := altP_error_elim
      (onlyError_altP (onlyError_mapP _ onlyError_edge_statement)
        (onlyError_mapP _ onlyError_node_statement)) hXerr
    have hN := (altP_error_elim (onlyError_mapP _ onlyError_edge_statement) hEN.1).2
    have hnode : node_statement_rule (i.dropWhile isWsChar) = .error NomErr.Error :=
      mapP_error_elim hN
    have hident := node_error_imp_ident_error hnode
    obtain ⟨as, hAS, _⟩ := mapP_ok_elim hA
    obtain ⟨c, t', hhead, hcalpha⟩ := attribute_statement_head_alpha hAS
    obtain ⟨ri, vi, hok⟩ := ident_ok_of_alpha hcalpha t'
    rw [hhead, hok] at hident
    exact Except.noConfusion hident

/-! ## Introduction lemmas for the combinators -/

theorem tag_error_intro {n i} (h : n.isPrefixOf i = false) :
    tag n i = .error NomErr.Error := by
  unfold tag
  rw [if_neg]
  simp [h]

theorem charP_ok_intro (c : Char) (t : Input) : charP c (c :: t) = .ok (t, c) := by
  unfold charP
  dsimp only
  rw [if_pos rfl]

theorem charP_error_ne {c c2 : Char} (h : c2 ≠ c) (t : Input) :
    charP c (c2 :: t) = .error NomErr.Error := by
  unfold charP
  dsimp only
  rw [if_neg h]

theorem charP_error_nil (c : Char) : charP c [] = .error NomErr.Error := rfl

theorem takeUntil1_ok_intro {n i k} (h : findSubstring n i = some (k + 1)) :
    takeUntil1 n i = .ok (i.drop (k + 1), i.take (k + 1)) := by
  unfold takeUntil1
  rw [h]

theorem takeUntil1_error_none {n i} (h : findSubstring n i = none) :
    takeUntil1 n i = .error NomErr.Error := by
  unfold takeUntil1
  rw [h]

theorem takeUntil1_error_zero {n i} (h : findSubstring n i = some 0) :
    takeUntil1 n i = .error NomErr.Error := by
  unfold takeUntil1
  rw [h]

theorem altP_ok_first {α : Type} {p q : Parser α} {i r v} (h : p i = .ok (r, v)) :
    altP p q i = .ok (r, v) := by
  unfold altP
  rw [h]

theorem altP_second {α : Type} {p q : Parser α} {i x}
    (h : p i = .error NomErr.Error) (h2 : q i = x) : altP p q i = x := by
  unfold altP
  rw [h]
  exact h2

theorem mapP_ok_intro {α β : Type} {p : Parser α} {f : α → β} {i r a}
    (h : p i = .ok (r, a)) : mapP p f i = .ok (r, f a) := by
  unfold mapP
  rw [h]

theorem mapP_error_intro {α β : Type} {p : Parser α} {f : α → β} {i e}
    (h : p i = .error e) : mapP p f i = .error e := by
  unfold mapP
  rw [h]

/-! ## Lemmas about findSubstring and hasSub -/

theorem findSubstring_at_head {n l : List Char} (h : n.isPrefixOf l = true) :
    findSubstring n l = some 0 := by
  cases l with
  | nil =>
    cases n with
    | nil => rfl
    | cons a as => simp [List.isPrefixOf] at h
  | cons c t =>
    unfold findSubstring
    rw [if_pos h]

theorem findSubstring_cons_step {n : List Char} {c : Char} {t : List Char}
    (h : n.isPrefixOf (c :: t) = false) :
    findSubstring n (c :: t) = (findSubstring n t).map (fun k => k + 1) := by
  rw [findSubstring]
  rw [if_neg (by simp [h])]

theorem findSubstring_none_tail {n : List Char} {c : Char} {t : List Char}
    (h : findSubstring n (c :: t) = none) : findSubstring n t = none := by
  unfold findSubstring at h
  split at h
  · cases h
  · exact Option.map_eq_none'.mp h

theorem findSubstring_none_drop {n : List Char} :
    ∀ l, findSubstring n l = none → ∀ j, findSubstring n (l.drop j) = none := by
  intro l
  induction l with
  | nil =>
    intro h j
    cases j <;> exact h
  | cons c t ih =>
    intro h j
    cases j with
    | zero => exact h
    | succ j => exact ih (findSubstring_none_tail h) j

theorem findSubstring_isPrefixOf_drop {n : List Char} :
    ∀ l k, findSubstring n l = some k → n.isPrefixOf (l.drop k) = true := by
  intro l
  induction l with
  | nil =>
    intro k h
    unfold findSubstring at h
    split at h
    · rename_i hemp
      cases h
      cases n with
      | nil => rfl
      | cons a as => simp at hemp
    · cases h
  | cons c t ih =>
    intro k h
    unfold findSubstring at h
    split at h
    · rename_i hpre
      cases h
      exact hpre
    · rw [Option.map_eq_some'] at h
      obtain ⟨k0, hk0, hki⟩ := h
      subst hki
      exact ih k0 hk0

theorem hasSub_eq_isSome (n : List Char) :
    ∀ l, hasSub n l = (findSubstring n l).isSome := by
  intro l
  induction l with
  | nil =>
    cases hn : n.isEmpty <;> simp [hasSub, findSubstring, hn]
  | cons c t ih =>
    cases hp : n.isPrefixOf (c :: t) with
    | true =>
      unfold hasSub findSubstring
      simp [hp]
    | false =>
      unfold hasSub findSubstring
      simp [hp, ih]

/-! ## Behavior of the quoted-string fragment parser -/

theorem frag_escape (t : Input) :
    quote_string_fragment_rule ('\\' :: '"' :: t) = .ok (t, ['"']) := by
  unfold quote_string_fragment_rule
  exact altP_ok_first (mapP_ok_intro (tag_ok_intro ['\\', '"'] t))

theorem frag_chunk_esc {body : Input} {k : Nat}
    (h : findSubstring escSeq body = some (k + 1)) :
    quote_string_fragment_rule body = .ok (body.drop (k + 1), body.take (k + 1)) := by
  simp only [escSeq] at h
  have hnp : (['\\', '"'] : List Char).isPrefixOf body = false := by
    cases hb : (['\\', '"'] : List Char).isPrefixOf body with
    | false => rfl
    | true =>
      rw [findSubstring_at_head hb] at h
      simp at h
  unfold quote_string_fragment_rule
  exact altP_second (mapP_error_intro (tag_error_intro hnp))
    (altP_ok_first (takeUntil1_ok_intro h))

theorem frag_chunk_quote {body : Input} {m : Nat}
    (hesc : findSubstring escSeq body = none)
    (h : findSubstring ['"'] body = some (m + 1)) :
    quote_string_fragment_rule body = .ok (body.drop (m + 1), body.take (m + 1)) := by
  simp only [escSeq] at hesc
  have hnp : (['\\', '"'] : List Char).isPrefixOf body = false := by
    cases hb : (['\\', '"'] : List Char).isPrefixOf body with
    | false => rfl
    | true =>
      rw [findSubstring_at_head hb] at hesc
      cases hesc
  unfold quote_string_fragment_rule
  exact altP_second (mapP_error_intro (tag_error_intro hnp))
    (altP_second (takeUntil1_error_none hesc) (takeUntil1_ok_intro h))

theorem frag_fail_none {body : Input}
    (hesc : findSubstring escSeq body = none)
    (hq : findSubstring ['"'] body = none) :
    quote_string_fragment_rule body = .error NomErr.Error := by
  simp only [escSeq] at hesc
  have hnp : (['\\', '"'] : List Char).isPrefixOf body = false := by
    cases hb : (['\\', '"'] : List Char).isPrefixOf body with
    | false => rfl
    | true =>
      rw [findSubstring_at_head hb] at hesc
      cases hesc
  unfold quote_string_fragment_rule
  exact altP_second (mapP_error_intro (tag_error_intro hnp))
    (altP_second (takeUntil1_error_none hesc) (takeUntil1_error_none hq))

theorem frag_fail_zero {body : Input}
    (hesc : findSubstring escSeq body = none)
    (hq : findSubstring ['"'] body = some 0) :
    quote_string_fragment_rule body = .error NomErr.Error := by
  simp only [escSeq] at hesc
  have hnp : (['\\', '"'] : List Char).isPrefixOf body = false := by
    cases hb : (['\\', '"'] : List Char).isPrefixOf body with
    | false => rfl
    | true =>
      rw [findSubstring_at_head hb] at hesc
      cases hesc
  unfold quote_string_fragment_rule
  exact altP_second (mapP_error_intro (tag_error_intro hnp))
    (altP_second (takeUntil1_error_none hesc) (takeUntil1_error_zero hq))

/-! ## Unfolding lemmas for the reference scanner -/

theorem quoteBodySpec_esc (t : List Char) :
    quoteBodySpec ('\\' :: '"' :: t) = (quoteBodySpec t).map (fun p => ('"' :: p.1, p.2)) := by
  rw [quoteBodySpec]
  rw [if_pos (by simp)]

theorem quoteBodySpec_cons_literal {c d : Char} {rest : List Char}
    (h1 : ¬(c = '\\' ∧ d = '"'))
    (h2 : c = '"' → hasSub escSeq (d :: rest) = true) :
    quoteBodySpec (c :: d :: rest) =
      (quoteBodySpec (d :: rest)).map (fun p => (c :: p.1, p.2)) := by
  rw [quoteBodySpec]
  have hb1 : (decide (c = '\\') && decide (d = '"')) = false := by
    by_cases hc : c = '\\'
    · by_cases hd : d = '"'
      · exact absurd ⟨hc, hd⟩ h1
      · simp [hd]
    · simp [hc]
  rw [if_neg (by simp [hb1])]
  by_cases hc2 : c = '"'
  · subst hc2
    rw [if_pos (by simp [h2 rfl])]
  · rw [if_neg (by simp [hc2]), if_neg hc2]

theorem quoteBodySpec_close_head {t : List Char} (h : hasSub escSeq t = false) :
    quoteBodySpec ('"' :: t) = some ([], t) := by
  cases t with
  | nil => rfl
  | cons d rest =>
    rw [quoteBodySpec]
    rw [if_neg (by simp)]
    rw [if_neg (by simp [h])]
    rw [if_pos rfl]

/-! ## The reference scanner against occurrence positions -/

theorem quoteBodySpec_absorb :
    ∀ k t, findSubstring escSeq t = some (k + 1) →
      quoteBodySpec t = (quoteBodySpec (t.drop (k + 1))).map
        (fun p => (t.take (k + 1) ++ p.1, p.2)) := by
  intro k
  induction k with
  | zero =>
    intro t h
    cases t with
    | nil => simp [findSubstring, escSeq] at h
    | cons c t2 =>
      have hnp : escSeq.isPrefixOf (c :: t2) = false := by
        cases hb : escSeq.isPrefixOf (c :: t2) with
        | false => rfl
        | true =>
          rw [findSubstring_at_head hb] at h
          simp at h
      rw [findSubstring_cons_step hnp, Option.map_eq_some'] at h
      obtain ⟨k0, hk0, hki⟩ := h
      have hk00 : k0 = 0 := by omega
      subst hk00
      have hpre : escSeq.isPrefixOf t2 = true := by
        have := findSubstring_isPrefixOf_drop t2 0 hk0
        rwa [List.drop_zero] at this
      rw [List.isPrefixOf_iff_prefix] at hpre
      obtain ⟨s, hs⟩ := hpre
      rw [show escSeq ++ s = '\\' :: '"' :: s from rfl] at hs
      subst hs
      have h1 : ¬(c = '\\' ∧ '\\' = '"') := by
        rintro ⟨-, hd⟩
        cases hd
      have h2 : c = '"' → hasSub escSeq ('\\' :: '"' :: s) = true := by
        intro _
        rw [hasSub_eq_isSome, findSubstring_at_head (by simp [escSeq, List.isPrefixOf])]
        rfl
      rw [quoteBodySpec_cons_literal h1 h2]
      rfl
  | succ k ih =>
    intro t h
    cases t with
    | nil => simp [findSubstring, escSeq] at h
    | cons c t2 =>
      have hnp : escSeq.isPrefixOf (c :: t2) = false := by
        cases hb : escSeq.isPrefixOf (c :: t2) with
        | false => rfl
        | true =>
          rw [findSubstring_at_head hb] at h
          simp at h
      rw [findSubstring_cons_step hnp, Option.map_eq_some'] at h
      obtain ⟨k0, hk0, hki⟩ := h
      have hk01 : k0 = k + 1 := by omega
      subst hk01
      cases t2 with
      | nil => simp [findSubstring, escSeq] at hk0
      | cons d rest =>
        have h1 : ¬(c = '\\' ∧ d = '"') := by
          rintro ⟨hc1, hd1⟩
          subst hc1
          subst hd1
          have : escSeq.isPrefixOf ('\\' :: '"' :: rest) = true := by
            simp [escSeq, List.isPrefixOf]
          rw [this] at hnp
          cases hnp
        have h2 : c = '"' → hasSub escSeq (d :: rest) = true := by
          intro _
          rw [hasSub_eq_isSome, hk0]
          rfl
        rw [quoteBodySpec_cons_literal h1 h2, ih (d :: rest) hk0, Option.map_map]
        rfl

theorem quoteBodySpec_close :
    ∀ t m, findSubstring escSeq t = none → findSubstring ['"'] t = some m →
      quoteBodySpec t = some (t.take m, t.drop (m + 1)) := by
  intro t
  induction t with
  | nil =>
    intro m h1 h2
    simp [findSubstring] at h2
  | cons c t2 ih =>
    intro m h1 h2
    by_cases hc : c = '"'
    · subst hc
      rw [findSubstring_at_head (by simp [List.isPrefixOf])] at h2
      have hm : m = 0 := by
        injection h2 with h3
        omega
      subst hm
      have htail := findSubstring_none_tail h1
      rw [quoteBodySpec_close_head (by rw [hasSub_eq_isSome, htail]; rfl)]
      rfl
    · have hnp : (['"'] : List Char).isPrefixOf (c :: t2) = false := by
        simp [List.isPrefixOf]
        exact fun h => hc h.symm
      rw [findSubstring_cons_step hnp, Option.map_eq_some'] at h2
      obtain ⟨m0, hm0, hmi⟩ := h2
      subst hmi
      have htail := findSubstring_none_tail h1
      cases t2 with
      | nil => simp [findSubstring] at hm0
      | cons d rest =>
        have h1' : ¬(c = '\\' ∧ d = '"') := by
          rintro ⟨hc1, hd1⟩
          subst hc1
          subst hd1
          rw [findSubstring_at_head (by simp [escSeq, List.isPrefixOf])] at h1
          cases h1
        have h2' : c = '"' → hasSub escSeq (d :: rest) = true := fun hcc => absurd hcc hc
        rw [quoteBodySpec_cons_literal h1' h2', ih m0 htail hm0]
        rfl

theorem quoteBodySpec_none_of_no_quote :
    ∀ t, findSubstring ['"'] t = none → quoteBodySpec t = none := by
  intro t
  induction t with
  | nil =>
    intro h
    rfl
  | cons c t2 ih =>
    intro h
    have hc : c ≠ '"' := by
      intro hcc
      subst hcc
      rw [findSubstring_at_head (by simp [List.isPrefixOf])] at h
      cases h
    have htail := findSubstring_none_tail h
    cases t2 with
    | nil => simp [quoteBodySpec, hc]
    | cons d rest =>
      have h1 : ¬(c = '\\' ∧ d = '"') := by
        rintro ⟨-, hd1⟩
        subst hd1
        rw [findSubstring_at_head (by simp [List.isPrefixOf])] at htail
        cases htail
      have h2 : c = '"' → hasSub escSeq (d :: rest) = true := fun hcc => absurd hcc hc
      rw [quoteBodySpec_cons_literal h1 h2, ih htail]
      rfl

/-! ## The fragment loop against the reference scanner -/

theorem many0_frag_close :
    ∀ n body, (body : Input).length ≤ n → ∀ v r, quoteBodySpec body = some (v, r) →
      ∃ frags, many0 quote_string_fragment_rule body = .ok ('"' :: r, frags) ∧
        frags.flatten = v := by
  intro n
  induction n with
  | zero =>
    intro body hlen v r hspec
    have hb : body = [] := List.eq_nil_of_length_eq_zero (by omega)
    subst hb
    cases hspec
  | succ n ih =>
    intro body hlen v r hspec
    cases hfs : findSubstring escSeq body with
    | some k =>
      have hklen := findSubstring_le_length escSeq body k hfs
      cases k with
      | zero =>
        have hpre : escSeq.isPrefixOf body = true := by
          have := findSubstring_isPrefixOf_drop body 0 hfs
          rwa [List.drop_zero] at this
        rw [List.isPrefixOf_iff_prefix] at hpre
        obtain ⟨t, ht⟩ := hpre
        rw [show escSeq ++ t = '\\' :: '"' :: t from rfl] at ht
        subst ht
        rw [quoteBodySpec_esc, Option.map_eq_some'] at hspec
        obtain ⟨⟨v2, r2⟩, hspec2, hvr⟩ := hspec
        cases hvr
        obtain ⟨frags, hm, hf⟩ := ih t (by simp at hlen; omega) v2 r2 hspec2
        refine ⟨['"'] :: frags, ?_, by simp [hf]⟩
        rw [many0_step consuming_fragment (frag_escape t), hm]
      | succ k =>
        have hfrag := frag_chunk_esc hfs
        rw [quoteBodySpec_absorb k body hfs, Option.map_eq_some'] at hspec
        obtain ⟨⟨v2, r2⟩, hspec2, hvr⟩ := hspec
        cases hvr
        have hlen2 : (body.drop (k + 1)).length ≤ n := by
          rw [List.length_drop]
          omega
        obtain ⟨frags, hm, hf⟩ := ih (body.drop (k + 1)) hlen2 v2 r2 hspec2
        refine ⟨body.take (k + 1) :: frags, ?_, by simp [hf]⟩
        rw [many0_step consuming_fragment hfrag, hm]
    | none =>
      cases hq : findSubstring ['"'] body with
      | some m =>
        cases m with
        | zero =>
          have hpre : (['"'] : List Char).isPrefixOf body = true := by
            have := findSubstring_isPrefixOf_drop body 0 hq
            rwa [List.drop_zero] at this
          rw [List.isPrefixOf_iff_prefix] at hpre
          obtain ⟨t, ht⟩ := hpre
          rw [show (['"'] : List Char) ++ t = '"' :: t from rfl] at ht
          subst ht
          have htail := findSubstring_none_tail hfs
          rw [quoteBodySpec_close_head (by rw [hasSub_eq_isSome, htail]; rfl)] at hspec
          cases hspec
          refine ⟨[], many0_stop (frag_fail_zero hfs hq), by simp⟩
        | succ m =>
          have hfrag := frag_chunk_quote hfs hq
          rw [quoteBodySpec_close body (m + 1) hfs hq] at hspec
          cases hspec
          have hpre1 : (['"'] : List Char).isPrefixOf (body.drop (m + 1)) = true :=
            findSubstring_isPrefixOf_drop body (m + 1) hq
          rw [List.isPrefixOf_iff_prefix] at hpre1
          obtain ⟨s, hs⟩ := hpre1
          rw [show (['"'] : List Char) ++ s = '"' :: s from rfl] at hs
          have hstop : quote_string_fragment_rule (body.drop (m + 1)) = .error NomErr.Error := by
            apply frag_fail_zero
            · exact findSubstring_none_drop body hfs (m + 1)
            · rw [← hs]
              exact findSubstring_at_head (by simp [List.isPrefixOf])
          have hdrop2 : body.drop (m + 1 + 1) = s := by
            have h1 : (body.drop (m + 1)).drop 1 = body.drop (m + 1 + 1) :=
              List.drop_drop 1 (m + 1) body
            rw [← hs] at h1
            rw [← h1]
            rfl
          refine ⟨[body.take (m + 1)], ?_, by simp⟩
          rw [many0_step consuming_fragment hfrag, many0_stop hstop, ← hs, hdrop2]
      | none =>
        rw [quoteBodySpec_none_of_no_quote body hq] at hspec
        cases hspec

theorem many0_frag_fail :
    ∀ n body, (body : Input).length ≤ n → quoteBodySpec body = none →
      ∃ frags rest, many0 quote_string_fragment_rule body = .ok (rest, frags) ∧
        charP '"' rest = .error NomErr.Error := by
  intro n
  induction n with
  | zero =>
    intro body hlen hspec
    have hb : body = [] := List.eq_nil_of_length_eq_zero (by omega)
    subst hb
    exact ⟨[], [], many0_stop (frag_fail_none rfl rfl), charP_error_nil '"'⟩
  | succ n ih =>
    intro body hlen hspec
    cases hfs : findSubstring escSeq body with
    | some k =>
      have hklen := findSubstring_le_length escSeq body k hfs
      cases k with
      | zero =>
        have hpre : escSeq.isPrefixOf body = true := by
          have := findSubstring_isPrefixOf_drop body 0 hfs
          rwa [List.drop_zero] at this
        rw [List.isPrefixOf_iff_prefix] at hpre
        obtain ⟨t, ht⟩ := hpre
        rw [show escSeq ++ t = '\\' :: '"' :: t from rfl] at ht
        subst ht
        rw [quoteBodySpec_esc, Option.map_eq_none'] at hspec
        obtain ⟨frags, rest, hm, hcl⟩ := ih t (by simp at hlen; omega) hspec
        refine ⟨['"'] :: frags, rest, ?_, hcl⟩
        rw [many0_step consuming_fragment (frag_escape t), hm]
      | succ k =>
        have hfrag := frag_chunk_esc hfs
        rw [quoteBodySpec_absorb k body hfs, Option.map_eq_none'] at hspec
        have hlen2 : (body.drop (k + 1)).length ≤ n := by
          rw [List.length_drop]
          omega
        obtain ⟨frags, rest, hm, hcl⟩ := ih (body.drop (k + 1)) hlen2 hspec
        refine ⟨body.take (k + 1) :: frags, rest, ?_, hcl⟩
        rw [many0_step consuming_fragment hfrag, hm]
    | none =>
      cases hq : findSubstring ['"'] body with
      | some m =>
        cases m with
        | zero =>
          have hpre : (['"'] : List Char).isPrefixOf body = true := by
            have := findSubstring_isPrefixOf_drop body 0 hq
            rwa [List.drop_zero] at this
          rw [List.isPrefixOf_iff_prefix] at hpre
          obtain ⟨t, ht⟩ := hpre
          rw [show (['"'] : List Char) ++ t = '"' :: t from rfl] at ht
          subst ht
          have htail := findSubstring_none_tail hfs
          rw [quoteBodySpec_close_head (by rw [hasSub_eq_isSome, htail]; rfl)] at hspec
          cases hspec
        | succ m =>
          rw [quoteBodySpec_close body (m + 1) hfs hq] at hspec
          cases hspec
      | none =>
        refine ⟨[], body, many0_stop (frag_fail_none hfs hq), ?_⟩
        cases body with
        | nil => exact charP_error_nil '"'
        | cons c t =>
          have hc : c ≠ '"' := by
            intro hcc
            subst hcc
            rw [findSubstring_at_head (by simp [List.isPrefixOf])] at hq
            cases hq
          exact charP_error_ne hc t

/-- The quoted-string identifier rule, on any input starting with a
double quote, computes exactly what the reference scanner
quoteBodySpec describes. -/
theorem quote_ident_eq_spec (body : Input) :
    quote_string_ident_rule ('"' :: body) =
      (match quoteBodySpec body with
       | some (v, r) => .ok (r, v)
       | none => .error NomErr.Error) := by
  have hopen : charP '"' ('"' :: body) = .ok (body, '"') := charP_ok_intro '"' body
  unfold quote_string_ident_rule delimitedP
  rw [hopen]
  dsimp only
  cases hspec : quoteBodySpec body with
  | some p =>
    obtain ⟨v, r⟩ := p
    obtain ⟨frags, hm, hf⟩ := many0_frag_close body.length body (Nat.le_refl _) v r hspec
    have hmap : mapP (many0 quote_string_fragment_rule) (fun v => v.flatten) body =
        .ok ('"' :: r, v) := by
      rw [← hf]
      exact mapP_ok_intro hm
    rw [hmap]
    dsimp only
    rw [charP_ok_intro '"' r]
  | none =>
    obtain ⟨frags, rest, hm, hcl⟩ := many0_frag_fail body.length body (Nat.le_refl _) hspec
    have hmap : mapP (many0 quote_string_fragment_rule) (fun v => v.flatten) body =
        .ok (rest, frags.flatten) := mapP_ok_intro hm
    rw [hmap]
    dsimp only
    rw [hcl]

/-- When every quote of the body is escaped, the reference scanner
finds no closing quote. -/
theorem noUnescaped_spec_none :
    ∀ n body, (body : Input).length ≤ n → noUnescapedQuote body = true →
      quoteBodySpec body = none := by
  intro n
  induction n with
  | zero =>
    intro body hlen _
    have hb : body = [] := List.eq_nil_of_length_eq_zero (by omega)
    subst hb
    rfl
  | succ n ih =>
    intro body hlen hq
    match body with
    | [] => rfl
    | [c] =>
      have hc : c ≠ '"' := by
        rw [noUnescapedQuote] at hq
        simpa using hq
      rw [quoteBodySpec]
      rw [if_neg hc]
    | c :: d :: rest =>
      rw [noUnescapedQuote] at hq
      by_cases hesc : c = '\\' ∧ d = '"'
      · obtain ⟨hc1, hd1⟩ := hesc
        subst hc1
        subst hd1
        rw [if_pos (by simp)] at hq
        rw [quoteBodySpec_esc, ih rest (by simp at hlen; omega) hq]
        rfl
      · have hb1 : ((c = '\\' : Bool) && (d = '"' : Bool)) = false := by
          by_cases hc : c = '\\'
          · by_cases hd : d = '"'
            · exact absurd ⟨hc, hd⟩ hesc
            · simp [hd]
          · simp [hc]
        rw [if_neg (by simp [hb1])] at hq
        have hc2 : ¬ c = '"' := by
          intro hcc
          rw [if_pos hcc] at hq
          cases hq
        rw [if_neg hc2] at hq
        rw [quoteBodySpec_cons_literal hesc (fun hcc => absurd hcc hc2),
          ih (d :: rest) (by simp only [List.length_cons] at hlen ⊢; omega) hq]
        rfl

/-! ## More introduction lemmas for sequencing -/

theorem pairP_ok_intro {α β : Type} {p : Parser α} {q : Parser β} {i i1 i2 a b}
    (h1 : p i = .ok (i1, a)) (h2 : q i1 = .ok (i2, b)) :
    pairP p q i = .ok (i2, (a, b)) := by
  unfold pairP
  rw [h1]
  dsimp only
  rw [h2]

theorem tuple3P_ok_intro {α β γ : Type} {p : Parser α} {q : Parser β} {s : Parser γ}
    {i i1 i2 i3 a b c}
    (h1 : p i = .ok (i1, a)) (h2 : q i1 = .ok (i2, b)) (h3 : s i2 = .ok (i3, c)) :
    tuple3P p q s i = .ok (i3, (a, b, c)) := by
  unfold tuple3P
  rw [h1]
  dsimp only
  rw [h2]
  dsimp only
  rw [h3]

theorem optP_some_intro {α : Type} {p : Parser α} {i r a} (h : p i = .ok (r, a)) :
    optP p i = .ok (r, some a) := by
  unfold optP
  rw [h]

theorem optP_none_intro {α : Type} {p : Parser α} {i} (h : p i = .error NomErr.Error) :
    optP p i = .ok (i, none) := by
  unfold optP
  rw [h]

theorem recognizeP_ok_intro {α : Type} {p : Parser α} {i r a} (h : p i = .ok (r, a)) :
    recognizeP p i = .ok (r, i.take (i.length - r.length)) := by
  unfold recognizeP
  rw [h]

/-! ## takeWhile and dropWhile helpers -/

theorem drop_length_takeWhile (p : Char → Bool) :
    ∀ l : List Char, l.drop (l.takeWhile p).length = l.dropWhile p := by
  intro l
  induction l with
  | nil => rfl
  | cons c t ih =>
    rw [List.takeWhile_cons, List.dropWhile_cons]
    cases hc : p c with
    | true =>
      rw [if_pos rfl, if_pos rfl]
      simpa using ih
    | false =>
      rw [if_neg (by simp), if_neg (by simp)]
      rfl

theorem takeWhile1_ok_elim {p : Char → Bool} {i r v}
    (h : takeWhile1 p i = .ok (r, v)) :
    v = i.takeWhile p ∧ r = i.dropWhile p ∧ v ≠ [] := by
  unfold takeWhile1 at h
  split at h
  · cases h
  · rename_i c cs heq
    cases h
    refine ⟨heq.symm, ?_, by simp⟩
    rw [← drop_length_takeWhile p i, heq]

theorem takeWhile1_ok_intro {p : Char → Bool} {i : Input} {c : Char} {cs : List Char}
    (h : i.takeWhile p = c :: cs) :
    takeWhile1 p i = .ok (i.dropWhile p, c :: cs) := by
  unfold takeWhile1
  rw [h]
  rw [← drop_length_takeWhile p i, h]

theorem all_takeWhile (p : Char → Bool) (l : List Char) :
    (l.takeWhile p).all p = true := by
  rw [List.all_eq_true]
  intro x hx
  simpa using List.mem_takeWhile_imp hx

theorem takeWhile_all_append (p : Char → Bool) {y : Char} (hy : p y = false) (ys : List Char) :
    ∀ xs : List Char, xs.all p = true →
      (xs ++ y :: ys).takeWhile p = xs ∧ (xs ++ y :: ys).dropWhile p = y :: ys := by
  intro xs
  induction xs with
  | nil =>
    intro _
    constructor
    · rw [List.nil_append, List.takeWhile_cons, if_neg (by simp [hy])]
    · rw [List.nil_append, List.dropWhile_cons, if_neg (by simp [hy])]
  | cons x xs ih =>
    intro hall
    rw [List.all_cons, Bool.and_eq_true] at hall
    obtain ⟨hx, hxs⟩ := hall
    obtain ⟨ih1, ih2⟩ := ih hxs
    constructor
    · rw [List.cons_append, List.takeWhile_cons, if_pos (by simp [hx]), ih1]
    · rw [List.cons_append, List.dropWhile_cons, if_pos (by simp [hx]), ih2]

theorem takeWhile_all_self (p : Char → Bool) :
    ∀ xs : List Char, xs.all p = true → xs.takeWhile p = xs ∧ xs.dropWhile p = [] := by
  intro xs
  induction xs with
  | nil =>
    intro _
    exact ⟨rfl, rfl⟩
  | cons x xs ih =>
    intro hall
    rw [List.all_cons, Bool.and_eq_true] at hall
    obtain ⟨hx, hxs⟩ := hall
    obtain ⟨ih1, ih2⟩ := ih hxs
    constructor
    · rw [List.takeWhile_cons, if_pos (by simp [hx]), ih1]
    · rw [List.dropWhile_cons, if_pos (by simp [hx]), ih2]

/-! ## The numeral rule -/

theorem take_prefix_of_append (P R : List Char) :
    (P ++ R).take ((P ++ R).length - R.length) = P := by
  have hlen : (P ++ R).length - R.length = P.length := by
    rw [List.length_append]
    omega
  rw [hlen, List.take_left]

theorem num_ident_ok_elim {i r v} (h : num_ident_rule i = .ok (r, v)) :
    numeralShape v ∧ i = v ++ r := by
  unfold num_ident_rule at h
  cases hin : tuple3P (optP (tag ['-'])) digit1 (pairP (tag ['.']) digit0) i with
  | error e =>
    unfold recognizeP at h
    rw [hin] at h
    cases h
  | ok a =>
    obtain ⟨r0, sgn, dsv, dotv, fsv⟩ := a
    unfold recognizeP at h
    rw [hin] at h
    dsimp only at h
    cases h
    obtain ⟨i1, i2, hopt, hdig, hpair⟩ := tuple3P_ok_elim hin
    obtain ⟨hdsv, hdrop, hdne⟩ := takeWhile1_ok_elim hdig
    obtain ⟨i3, htag, hd0⟩ := pairP_ok_elim hpair
    obtain ⟨-, hi2eq⟩ := tag_ok_elim htag
    have hi2' : i2 = '.' :: i3 := by
      rw [hi2eq]
      rfl
    unfold digit0 at hd0
    cases hd0
    have hi1eq : i1 = i1.takeWhile isAsciiDigit ++ '.' :: i3 := by
      conv_lhs => rw [← List.takeWhile_append_dropWhile isAsciiDigit i1]
      rw [← hdrop, hi2']
    have hi3eq : i3 = i3.takeWhile isAsciiDigit ++ i3.dropWhile isAsciiDigit :=
      (List.takeWhile_append_dropWhile _ _).symm
    have hdne' : i1.takeWhile isAsciiDigit ≠ [] := by
      rw [← hdsv]
      exact hdne
    rcases optP_ok_elim hopt with ⟨a1, -, htg⟩ | ⟨-, hreq, -⟩
    · obtain ⟨-, hieq⟩ := tag_ok_elim htg
      obtain ⟨ds, hds⟩ : ∃ x, x = i1.takeWhile isAsciiDigit := ⟨_, rfl⟩
      obtain ⟨fs, hfs⟩ : ∃ x, x = i3.takeWhile isAsciiDigit := ⟨_, rfl⟩
      obtain ⟨R, hR⟩ : ∃ x, x = i3.dropWhile isAsciiDigit := ⟨_, rfl⟩
      rw [← hds] at hi1eq hdne'
      rw [← hfs, ← hR] at hi3eq
      rw [← hR]
      have hPfull : i = ('-' :: (ds ++ '.' :: fs)) ++ R := by
        rw [hieq, hi1eq, hi3eq]
        simp
      rw [hPfull, take_prefix_of_append]
      refine ⟨⟨ds, fs, hdne', ?_, ?_, Or.inr rfl⟩, rfl⟩
      · rw [hds]
        exact all_takeWhile _ _
      · rw [hfs]
        exact all_takeWhile _ _
    · rw [← hreq]
      obtain ⟨ds, hds⟩ : ∃ x, x = i1.takeWhile isAsciiDigit := ⟨_, rfl⟩
      obtain ⟨fs, hfs⟩ : ∃ x, x = i3.takeWhile isAsciiDigit := ⟨_, rfl⟩
      obtain ⟨R, hR⟩ : ∃ x, x = i3.dropWhile isAsciiDigit := ⟨_, rfl⟩
      rw [← hds] at hi1eq hdne'
      rw [← hfs, ← hR] at hi3eq
      have hPfull : i1 = (ds ++ '.' :: fs) ++ R := by
        conv_lhs => rw [hi1eq, hi3eq]
        simp
      rw [← hR, hPfull, take_prefix_of_append]
      refine ⟨⟨ds, fs, hdne', ?_, ?_, Or.inl rfl⟩, rfl⟩
      · rw [hds]
        exact all_takeWhile _ _
      · rw [hfs]
        exact all_takeWhile _ _

theorem num_ident_ok_intro {sign ds fs : List Char}
    (hsign : sign = [] ∨ sign = ['-'])
    (hne : ds ≠ []) (hds : ds.all isAsciiDigit = true) (hfs : fs.all isAsciiDigit = true) :
    num_ident_rule (sign ++ ds ++ '.' :: fs) = .ok ([], sign ++ ds ++ '.' :: fs) := by
  obtain ⟨d, ds2, rfl⟩ : ∃ d ds2, ds = d :: ds2 := by
    cases ds with
    | nil => exact absurd rfl hne
    | cons d ds2 => exact ⟨d, ds2, rfl⟩
  have hd : isAsciiDigit d = true := by
    rw [List.all_cons, Bool.and_eq_true] at hds
    exact hds.1
  have htw := takeWhile_all_append isAsciiDigit (y := '.') (by decide) fs (d :: ds2) hds
  have hdig : digit1 ((d :: ds2) ++ '.' :: fs) = .ok ('.' :: fs, d :: ds2) := by
    have h1 := takeWhile1_ok_intro (p := isAsciiDigit) htw.1
    rw [htw.2] at h1
    exact h1
  have htagdot : tag ['.'] ('.' :: fs) = .ok (fs, ['.']) := tag_ok_intro ['.'] fs
  have hfs0 := takeWhile_all_self isAsciiDigit fs hfs
  have hdig0 : digit0 fs = .ok ([], fs) := by
    unfold digit0
    rw [hfs0.1, hfs0.2]
  rcases hsign with rfl | rfl
  · have hdne2 : d ≠ '-' := by
      intro hh
      subst hh
      rw [show isAsciiDigit '-' = false from rfl] at hd
      cases hd
    have hopt : optP (tag ['-']) ((d :: ds2) ++ '.' :: fs) =
        .ok ((d :: ds2) ++ '.' :: fs, none) := by
      apply optP_none_intro
      apply tag_error_intro
      simp [List.isPrefixOf]
      exact fun hh => hdne2 hh.symm
    have hin := tuple3P_ok_intro hopt hdig (pairP_ok_intro htagdot hdig0)
    have hrec := recognizeP_ok_intro hin
    unfold num_ident_rule
    simp only [List.nil_append] at hrec ⊢
    rw [hrec]
    simp [List.take_length]
  · have hopt : optP (tag ['-']) (['-'] ++ ((d :: ds2) ++ '.' :: fs)) =
        .ok ((d :: ds2) ++ '.' :: fs, some ['-']) :=
      optP_some_intro (tag_ok_intro ['-'] ((d :: ds2) ++ '.' :: fs))
    have hin := tuple3P_ok_intro hopt hdig (pairP_ok_intro htagdot hdig0)
    have hrec := recognizeP_ok_intro hin
    unfold num_ident_rule
    rw [show ['-'] ++ ((d :: ds2) ++ '.' :: fs) = '-' :: ((d :: ds2) ++ '.' :: fs) from rfl] at hrec
    rw [show (['-'] : List Char) ++ (d :: ds2) ++ '.' :: fs = '-' :: ((d :: ds2) ++ '.' :: fs) from by simp]
    rw [hrec]
    simp [List.take_length]

/-! ## Helpers for the entry point and the remaining claims -/

theorem parse_graph_ok_elim {i : Input} {g : Graph} (h : parse_graph i = .ok g) :
    ∃ rest, graph_rule i = .ok (rest, g) := by
  unfold parse_graph at h
  cases hg : graph_rule i with
  | ok a =>
    obtain ⟨rest, g2⟩ := a
    rw [hg] at h
    dsimp only at h
    split at h
    · cases h
      exact ⟨rest, rfl⟩
    · cases h
  | error e =>
    rw [hg] at h
    cases e <;> exact Except.noConfusion h

theorem parse_graph_never_eof (i : Input) :
    parse_graph i ≠ .error GraphParseError.UnexpectedEof := by
  intro h
  unfold parse_graph at h
  cases hg : graph_rule i with
  | ok a =>
    obtain ⟨rest, g⟩ := a
    rw [hg] at h
    dsimp only at h
    split at h
    · cases h
    · cases h
  | error e =>
    have he := onlyError_graph i e hg
    subst he
    rw [hg] at h
    dsimp only at h
    exact absurd h (by decide)

theorem graph_ok_statements {i r : Input} {g : Graph} (h : graph_rule i = .ok (r, g)) :
    ∃ j rj, statements_rule j = .ok (rj, g.statements) := by
  unfold graph_rule at h
  obtain ⟨t3, htup, hval⟩ := mapP_ok_elim h
  obtain ⟨i1, i2, -, -, hdel⟩ := tuple3P_ok_elim htup
  obtain ⟨ia, ib, a, c, -, hstmts, -⟩ := delimitedP_ok_elim hdel
  rw [hval]
  exact ⟨ia, ib, hstmts⟩

theorem statement_edge_elim {j r : Input} {es : EdgeStatement}
    (h : statement_rule j = .ok (r, Statement.Edge es)) :
    ∃ j2 r2, edge_statement_rule j2 = .ok (r2, es) := by
  unfold statement_rule at h
  obtain ⟨r0, halt, -⟩ := ws_ok_elim h
  rcases altP_ok_elim halt with hX | ⟨-, hA⟩
  · rcases altP_ok_elim hX with hEN | ⟨-, hD⟩
    · rcases altP_ok_elim hEN with hE | ⟨-, hN⟩
      · obtain ⟨a, hEp, hval⟩ := mapP_ok_elim hE
        injection hval with h2
        subst h2
        exact ⟨_, _, hEp⟩
      · obtain ⟨a, -, hval⟩ := mapP_ok_elim hN
        exact Statement.noConfusion hval
    · obtain ⟨a, -, hval⟩ := mapP_ok_elim hD
      exact Statement.noConfusion hval
  · obtain ⟨a, -, hval⟩ := mapP_ok_elim hA
    exact Statement.noConfusion hval

theorem edge_chain_two {i r : Input} {st : EdgeStatement}
    (h : edge_statement_rule i = .ok (r, st)) : 2 ≤ st.list.length := by
  unfold edge_statement_rule at h
  obtain ⟨t3, htup, hval⟩ := mapP_ok_elim h
  obtain ⟨i1, i2, hid, hmany, hopt⟩ := tuple3P_ok_elim htup
  obtain ⟨i1b, o, acc, -, hl, -⟩ := many1_ok_elim hmany
  rw [hval]
  dsimp only
  rw [hl]
  simp only [List.length_cons, List.length_map]
  omega

theorem attribute_ok_name {i r : Input} {a : Attribute}
    (h : attribute_rule i = .ok (r, a)) :
    (∃ rest, i.dropWhile isWsChar = (("style").toList) ++ rest ∧
      ∃ t, rest.dropWhile isWsChar = '=' :: t) ∨
    (∃ rest, i.dropWhile isWsChar = (("shape").toList) ++ rest ∧
      ∃ t, rest.dropWhile isWsChar = '=' :: t) := by
  unfold attribute_rule at h
  obtain ⟨p1, hpair, -⟩ := mapP_ok_elim h
  obtain ⟨i1, halt, -⟩ := pairP_ok_elim hpair
  rcases altP_ok_elim halt with hst | ⟨-, hsh⟩
  · left
    obtain ⟨p2, hsep, -⟩ := mapP_ok_elim hst
    obtain ⟨ia, ib, bv, hws, hchar, -⟩ := sepPairP_ok_elim hsep
    obtain ⟨r0, htag, hia⟩ := ws_ok_elim hws
    obtain ⟨-, heq⟩ := tag_ok_elim htag
    obtain ⟨-, hia2⟩ := charP_ok_elim hchar
    refine ⟨r0, heq, ib, ?_⟩
    rw [← hia, hia2]
  · right
    obtain ⟨p2, hsep, -⟩ := mapP_ok_elim hsh
    obtain ⟨ia, ib, bv, hws, hchar, -⟩ := sepPairP_ok_elim hsep
    obtain ⟨r0, htag, hia⟩ := ws_ok_elim hws
    obtain ⟨-, heq⟩ := tag_ok_elim htag
    obtain ⟨-, hia2⟩ := charP_ok_elim hchar
    refine ⟨r0, heq, ib, ?_⟩
    rw [← hia, hia2]

/-! ## The claims -/

/-- Claim C1 (code bug): the spec expects the input
strict graph (brace) node [style=dashed,bold] (brace) to produce one
AttributeStatement of kind Node, but the code parses it as a
NodeStatement whose name is the keyword node carrying the Style
attribute: the attribute-block alternative of the statement rule is
ordered last and is shadowed by the node alternative (see
statement_never_attribute), so the entry point returns a Graph with
strict = true, kind Undirected, and a single Node statement. -/
theorem C1_attribute_block_scenario :
    parse_graph (("strict graph \x7b node [style=dashed,bold] \x7d").toList) =
      .ok ⟨GraphKind.Undirected, true,
        [Statement.Node ⟨(("node").toList), [Attribute.Style [Style.Dashed, Style.Bold]]⟩]⟩ := by
  decide

/-- Claim C2 (amended): on every input starting with a double quote,
the quoted-string rule behaves exactly as the reference scanner
quoteBodySpec: an escape sequence contributes a literal quote; a bare
quote closes the string only when no escape sequence occurs at or
after it, and is otherwise absorbed into the string; the value is the
consumed body with every escape sequence replaced by one quote, and
the rule fails when no closing quote is reachable.  In particular the
rule does not always stop at the first unescaped quote (see the
counterexample). -/
theorem C2_quote_rule_amended :
    ∀ body : Input, quote_string_ident_rule ('"' :: body) =
      (match quoteBodySpec body with
       | some (v, r) => .ok (r, v)
       | none => .error NomErr.Error) :=
  quote_ident_eq_spec

/-- Claim C2 counterexample: the input consisting of a quote, the text
ab, a bare quote, cd, an escaped quote, ef and a closing quote starts
with a double quote and contains a later unescaped double quote (after
ab), yet the rule consumes past that first unescaped quote: it
succeeds with the whole input consumed and value ab-quote-cd-quote-ef,
instead of stopping at the first unescaped closing quote with value ab
and remainder cd-escape-ef-quote as the claim requires. -/
theorem C2_quote_rule_counterexample :
    quote_string_ident_rule (("\"ab\"cd\\\"ef\"").toList) =
      .ok ([], ("ab\"cd\"ef").toList) ∧
    quote_string_ident_rule (("\"ab\"cd\\\"ef\"").toList) ≠
      .ok ((("cd\\\"ef\"").toList), (("ab").toList)) := by
  constructor
  · decide
  · decide

/-- Claim C3 (amended): on the input graph-brace, which ends before
the closing brace, the entry point returns the parse-error kind, not
the unexpected-end-of-input kind; in fact the unexpected-end-of-input
kind is never returned on any input, because the complete-input
combinators never produce the Incomplete error that parse_graph maps
to it. -/
theorem C3_eof_error_kind :
    parse_graph (("graph \x7b").toList) = .error GraphParseError.ParseError ∧
    ∀ i, isUnexpectedEof (parse_graph i) = false := by
  refine ⟨by decide, ?_⟩
  intro i
  cases hx : parse_graph i with
  | ok g => rfl
  | error e =>
    cases e with
    | UnexpectedEof => exact absurd hx (parse_graph_never_eof i)
    | UnexpectedInput rest => rfl
    | ParseError => rfl

/-- Claim C3 counterexample: on the input graph-brace the entry point
returns the parse-error kind, not the unexpected-end-of-input kind as
the claim states. -/
theorem C3_eof_counterexample :
    parse_graph (("graph \x7b").toList) = .error GraphParseError.ParseError ∧
    parse_graph (("graph \x7b").toList) ≠ .error GraphParseError.UnexpectedEof := by
  constructor
  · decide
  · decide

/-- Claim C4: for every input, the statement rule never returns an
attribute-block statement (the Statement.Attribute variant): the
keywords graph, node and edge are themselves valid bare-word
identifiers, so whenever the attribute-block alternative could match,
the earlier-ordered edge or node alternative already succeeds and is
chosen by the ordered alternation. -/
theorem C4_attribute_alternative_unreachable :
    ∀ i, isAttributeStatement (statement_rule i) = false := by
  intro i
  cases hx : statement_rule i with
  | error e => rfl
  | ok a =>
    obtain ⟨r, s⟩ := a
    cases s with
    | Attribute s2 => exact absurd hx (statement_never_attribute i r s2)
    | Node s2 => rfl
    | Edge s2 => rfl
    | Definition s2 => rfl

/-- Claim C5: for every input that starts with a double quote and
contains no unescaped closing double quote before the end of input,
the quoted-string identifier rule fails; it never succeeds by
implicitly closing the string at end-of-input. -/
theorem C5_unterminated_quote_fails :
    ∀ body : Input, noUnescapedQuote body = true →
      quote_string_ident_rule ('"' :: body) = .error NomErr.Error := by
  intro body h
  rw [quote_ident_eq_spec body,
    noUnescaped_spec_none body.length body (Nat.le_refl _) h]

/-- Witness for claim C5 at the concrete unterminated input from the
spec. -/
theorem C5_witness :
    noUnescapedQuote (("missing ending quote").toList) = true ∧
    quote_string_ident_rule (("\"missing ending quote").toList) = .error NomErr.Error := by
  constructor
  · decide
  · exact C5_unterminated_quote_fails (("missing ending quote").toList) (by decide)

/-- Claim C6: the input digraph-brace a -> b -> c brace parses to a
Graph of kind Directed with strict = false and a single EdgeStatement
whose chain is a, b, c and whose attribute list is empty. -/
theorem C6_edge_chain_scenario :
    parse_graph (("digraph \x7b a -> b -> c \x7d").toList) =
      .ok ⟨GraphKind.Directed, false,
        [Statement.Edge ⟨[(("a").toList), (("b").toList), (("c").toList)], []⟩]⟩ := by
  decide

/-- Claim C7: the attribute rule succeeds only when the attribute name
is literally style or shape (the name, after whitespace, is the exact
keyword followed, after whitespace, by an equals sign); on the input
color=red the attribute rule fails, and a graph text containing such
an attribute inside a bracket group produces the parse-error kind from
the entry point rather than a success that skips the attribute. -/
theorem C7_attribute_dispatch :
    (∀ i r a, attribute_rule i = .ok (r, a) →
      (∃ rest, i.dropWhile isWsChar = (("style").toList) ++ rest ∧
        ∃ t, rest.dropWhile isWsChar = '=' :: t) ∨
      (∃ rest, i.dropWhile isWsChar = (("shape").toList) ++ rest ∧
        ∃ t, rest.dropWhile isWsChar = '=' :: t)) ∧
    attribute_rule (("color=red").toList) = .error NomErr.Error ∧
    parse_graph (("graph \x7b node [color=red] \x7d").toList) =
      .error GraphParseError.ParseError := by
  exact ⟨fun i r a h => attribute_ok_name h, by decide, by decide⟩

/-- Witness for claim C7: the forward direction applied to the
successful parse of style=dashed. -/
theorem C7_witness :
    (∃ rest, ((("style=dashed").toList)).dropWhile isWsChar = (("style").toList) ++ rest ∧
      ∃ t, rest.dropWhile isWsChar = '=' :: t) ∨
    (∃ rest, ((("style=dashed").toList)).dropWhile isWsChar = (("shape").toList) ++ rest ∧
      ∃ t, rest.dropWhile isWsChar = '=' :: t) :=
  C7_attribute_dispatch.1 _ [] (Attribute.Style [Style.Dashed]) (by decide)

/-- Claim C8: the input graph-braces-garbage matches the graph
grammar and the entry point reports the unexpected-trailing-input
kind carrying the remainder garbage; in general, whenever the graph
grammar succeeds, the entry point returns that error kind with the
remainder exactly when non-whitespace text remains, and the Graph
when only whitespace or nothing remains. -/
theorem C8_trailing_input :
    parse_graph (("graph \x7b\x7d garbage").toList) =
      .error (GraphParseError.UnexpectedInput (("garbage").toList)) ∧
    ∀ i rest g, graph_rule i = .ok (rest, g) →
      (rest.all rustIsWhitespace = false →
        parse_graph i = .error (GraphParseError.UnexpectedInput rest)) ∧
      (rest.all rustIsWhitespace = true → parse_graph i = .ok g) := by
  refine ⟨by decide, ?_⟩
  intro i rest g h
  constructor
  · intro hws
    unfold parse_graph
    rw [h]
    dsimp only
    rw [if_neg (by simp [hws])]
  · intro hws
    unfold parse_graph
    rw [h]
    dsimp only
    rw [if_pos hws]

/-- Witness for claim C8: the general classification applied to a
concrete successful graph parse with the remainder xx. -/
theorem C8_witness :
    parse_graph (("graph \x7b\x7d xx").toList) =
      .error (GraphParseError.UnexpectedInput (("xx").toList)) :=
  (C8_trailing_input.2 _ (("xx").toList) ⟨GraphKind.Undirected, false, []⟩ (by decide)).1
    (by decide)

/-- Claim C9: the numeral alternative of the identifier rule matches
exactly the strings of the form optional minus sign, one or more
digits, a literal decimal point, zero or more digits (numeralShape);
consequently the digit-leading input 5cantstartwithnumber, which has
no decimal point, is rejected by the numeral form, by the bare-word
form, and by the identifier rule. -/
theorem C9_numeral_rule :
    (∀ i r v, num_ident_rule i = .ok (r, v) → numeralShape v ∧ i = v ++ r) ∧
    (∀ v, numeralShape v → num_ident_rule v = .ok ([], v)) ∧
    num_ident_rule (("5cantstartwithnumber").toList) = .error NomErr.Error ∧
    string_ident_rule (("5cantstartwithnumber").toList) = .error NomErr.Error ∧
    ident_rule (("5cantstartwithnumber").toList) = .error NomErr.Error := by
  refine ⟨fun i r v h => num_ident_ok_elim h, ?_, by decide, by decide, by decide⟩
  rintro v ⟨ds, fs, hne, hds, hfs, hv⟩
  rcases hv with rfl | rfl
  · have h := num_ident_ok_intro (Or.inl rfl) hne hds hfs
    simpa using h
  · have h := num_ident_ok_intro (Or.inr rfl) hne hds hfs
    simpa using h

/-- Witness for claim C9: both directions at the numeral 12.5. -/
theorem C9_witness :
    numeralShape (("12.5").toList) ∧
    num_ident_rule (("12.5").toList) = .ok ([], ("12.5").toList) := by
  have hshape : numeralShape (("12.5").toList) :=
    ⟨['1', '2'], ['5'], by decide, by decide, by decide, Or.inl (by decide)⟩
  exact ⟨hshape, C9_numeral_rule.2.1 _ hshape⟩

/-- Claim C10: every EdgeStatement produced by the edge-statement rule
has an identifier chain of length at least two, and therefore so does
every EdgeStatement appearing in a Graph returned by the entry
point. -/
theorem C10_edge_chain_length :
    (∀ i r st, edge_statement_rule i = .ok (r, st) → 2 ≤ st.list.length) ∧
    (∀ i g, parse_graph i = .ok g →
      ∀ es, Statement.Edge es ∈ g.statements → 2 ≤ es.list.length) := by
  constructor
  · intro i r st h
    exact edge_chain_two h
  · intro i g hp es hmem
    obtain ⟨rest, hg⟩ := parse_graph_ok_elim hp
    obtain ⟨j, rj, hst⟩ := graph_ok_statements hg
    unfold statements_rule at hst
    obtain ⟨j2, r2, hone⟩ := many0_mem hst _ hmem
    obtain ⟨j3, r3, hedge⟩ := statement_edge_elim hone
    exact edge_chain_two hedge

/-- Witness for claim C10: the entry-point part applied to a concrete
directed graph with one edge chain. -/
theorem C10_witness :
    2 ≤ (EdgeStatement.mk [(("a").toList), (("b").toList), (("c").toList)] []).list.length :=
  C10_edge_chain_length.2 (("digraph \x7b a -> b -> c \x7d").toList)
    ⟨GraphKind.Directed, false,
      [Statement.Edge ⟨[(("a").toList), (("b").toList), (("c").toList)], []⟩]⟩
    (by decide) ⟨[(("a").toList), (("b").toList), (("c").toList)], []⟩ (by decide)

end SimpleDot
